import Mathlib

/-!
# Verification of the video-cropper timeline engine

A shallow embedding of the timeline editing core of the `video-cropper`
repository: deleted-range bookkeeping and normalization, the real-time ↔
collapsed-time mapping, the playback guard decisions, the selection state,
and the export operation descriptor.  Times are modelled as rationals
(the source treats times as real numbers in seconds).

Sources embedded here:
* `TimelineFrames` (deleted-range model, collapsed mapping, playback guard)
* `AppState.setSelection` / `clearSelection`
* the export descriptor plumbing (`setDeletedRanges` sync and the worker's
  consumption of `operations.deletedRanges`)
-/

namespace VideoCropper

/-- Times in seconds.  The source manipulates IEEE doubles; we model them as
rationals, which keeps every arithmetic step of the source exact. -/
abbrev Time := ℚ

/-- The merge tolerance `1e-6` used by `normalizeDeletedRanges` and
`getVisibleRanges`. -/
def eps : Time := 1/1000000

/-- Function `clamp` from `src/js/utils.js`: `Math.min(Math.max(value, min), max)`. -/
def clamp (value lo hi : Time) : Time := min (max value lo) hi

/-- A deleted range `{start, end, expanded}` as stored in
`TimelineFrames.deletedRanges`. -/
structure DeletedRange where
  start : Time
  «end» : Time
  expanded : Bool
deriving DecidableEq, Repr

/-- A kept range `{start, end}` as produced by `getKeptRanges`. -/
structure TimeRange where
  start : Time
  «end» : Time
deriving DecidableEq, Repr

/-- A visible segment `{start, end, deleted}` as produced by
`getVisibleRanges`. -/
structure VisSeg where
  start : Time
  «end» : Time
  deleted : Bool
deriving DecidableEq, Repr

/-- Sort key used by `normalizeDeletedRanges`' `sort((a, b) => a.start - b.start)`. -/
def rleD (a b : DeletedRange) : Prop := a.start ≤ b.start

instance : DecidableRel rleD := fun a b => inferInstanceAs (Decidable (a.start ≤ b.start))

instance : IsTotal DeletedRange rleD := ⟨fun a b => le_total a.start b.start⟩

instance : IsTrans DeletedRange rleD := ⟨fun _ _ _ h h' => le_trans h h'⟩

/-- Sort key used by `getVisibleRanges`' `sort((a, b) => a.start - b.start)`. -/
def rleS (a b : VisSeg) : Prop := a.start ≤ b.start

instance : DecidableRel rleS := fun a b => inferInstanceAs (Decidable (a.start ≤ b.start))

instance : IsTotal VisSeg rleS := ⟨fun a b => le_total a.start b.start⟩

instance : IsTrans VisSeg rleS := ⟨fun _ _ _ h h' => le_trans h h'⟩

/-- The merge loop of `normalizeDeletedRanges` (src/unnamed/part_008, lines
981–995), written as a recursion whose first argument is the current last
element of `merged`:

```js
for (const r of ranges) {
  if (!merged.length) { merged.push({ ...r }); continue; }
  const last = merged[merged.length - 1];
  if (r.start <= last.end + 1e-6) {
    last.end = Math.max(last.end, r.end);
    last.expanded = Boolean(last.expanded && r.expanded);
  } else { merged.push({ ...r }); }
}
``` -/
def mergeSorted : DeletedRange → List DeletedRange → List DeletedRange
  | cur, [] => [cur]
  | cur, r :: rest =>
    if r.start ≤ cur.«end» + eps then
      mergeSorted ⟨cur.start, max cur.«end» r.«end», cur.expanded && r.expanded⟩ rest
    else
      cur :: mergeSorted r rest

/-- Method `normalizeDeletedRanges` (src/unnamed/part_008, lines 976–1001):
filter out non-positive-width ranges, sort ascending by `start`, then merge
ranges that overlap or come within `1e-6` of touching. -/
def normalizeDeletedRanges (rs : List DeletedRange) : List DeletedRange :=
  if rs.isEmpty then rs
  else
    match List.insertionSort rleD (rs.filter fun r => decide (r.start < r.«end»)) with
    | [] => []
    | r :: rest => mergeSorted r rest

/-- Method `addDeletedRange` (src/unnamed/part_008, lines 967–974): push
`{start, end, expanded: Boolean(range.expanded)}`, then normalize. -/
def addDeletedRange (rs : List DeletedRange) (range : DeletedRange) : List DeletedRange :=
  normalizeDeletedRanges (rs ++ [range])

/-- Method `hasDeletedInRange` (src/unnamed/part_008, lines 72–77). -/
def hasDeletedInRange (rs : List DeletedRange) (startSec endSec : Time) : Bool :=
  if rs.isEmpty then false
  else
    let s := min startSec endSec
    let e := max startSec endSec
    rs.any fun r => decide (max r.start s < min r.«end» e)

/-- The body of the `restoreDeletedInRange` loop (src/unnamed/part_008,
lines 85–110) for a single range `r` against the restored window `[s, e]`.
The split/trim branches push plain `{start, end}` objects, whose missing
`expanded` key reads back as falsy; that is modelled as `expanded := false`. -/
def restoreOne (s e : Time) (r : DeletedRange) : List DeletedRange :=
  let overlapStart := max r.start s
  let overlapEnd := min r.«end» e
  if overlapEnd ≤ overlapStart then [r]
  else if s ≤ r.start ∧ r.«end» ≤ e then []
  else if r.start < s ∧ e < r.«end» then [⟨r.start, s, false⟩, ⟨e, r.«end», false⟩]
  else if r.start < s ∧ r.«end» ≤ e then [⟨r.start, s, false⟩]
  else if s ≤ r.start ∧ e < r.«end» then [⟨e, r.«end», false⟩]
  else []

/-- Method `restoreDeletedInRange` (src/unnamed/part_008, lines 79–123): the loop
builds `next` by concatenating the per-range outputs (`restoreOne`), and
`changed` records whether any range had positive overlap with the window;
the ranges are replaced only when `changed`. -/
def restoreDeletedInRange (rs : List DeletedRange) (startSec endSec : Time) :
    List DeletedRange × Bool :=
  if rs.isEmpty then (rs, false)
  else
    let s := min startSec endSec
    let e := max startSec endSec
    let changed := rs.any fun r => decide (max r.start s < min r.«end» e)
    if changed then ((rs.map (restoreOne s e)).flatten, true) else (rs, false)

/-- The complement loop of `getKeptRanges` (src/unnamed/part_008, lines
1005–1012), parameterized by the running `cursor`. -/
def keptFromSorted (duration : Time) : Time → List DeletedRange → List TimeRange
  | cursor, [] => if cursor < duration then [⟨cursor, duration⟩] else []
  | cursor, r :: rest =>
    if cursor < r.start then
      ⟨cursor, r.start⟩ :: keptFromSorted duration (max cursor r.«end») rest
    else
      keptFromSorted duration (max cursor r.«end») rest

/-- Method `getKeptRanges` (src/unnamed/part_008, lines 1003–1013): normalize, then
take the complement of the deleted ranges against `[0, duration]`. -/
def getKeptRanges (duration : Time) (rs : List DeletedRange) : List TimeRange :=
  keptFromSorted duration 0 (normalizeDeletedRanges rs)

/-- The neighbor-merging loop of `getVisibleRanges` (src/unnamed/part_008,
lines 1022–1031): merge adjacent segments of the same type that touch within
`1e-6`. -/
def mergeSegs : VisSeg → List VisSeg → List VisSeg
  | cur, [] => [cur]
  | cur, s :: rest =>
    if s.deleted = cur.deleted ∧ s.start ≤ cur.«end» + eps then
      mergeSegs ⟨cur.start, max cur.«end» s.«end», cur.deleted⟩ rest
    else
      cur :: mergeSegs s rest

/-- Method `getVisibleRanges` (src/unnamed/part_008, lines 1015–1033): kept ranges
plus expanded deleted ranges, sorted by start, with same-type neighbors
merged.  (`getKeptRanges` normalizes `deletedRanges` in place first, so the
expanded filter also runs over the normalized list.) -/
def getVisibleRanges (duration : Time) (rs : List DeletedRange) : List VisSeg :=
  let ns := normalizeDeletedRanges rs
  let kept := (keptFromSorted duration 0 ns).map fun k => VisSeg.mk k.start k.«end» false
  let expandedDeleted := (ns.filter fun r => r.expanded).map fun r => VisSeg.mk r.start r.«end» true
  match List.insertionSort rleS (kept ++ expandedDeleted) with
  | [] => []
  | s :: rest => mergeSegs s rest

/-- Width of a visible segment. -/
def segWidth (s : VisSeg) : Time := s.«end» - s.start

/-- Method `getCollapsedDuration` (src/unnamed/part_008, lines 1035–1038). -/
def getCollapsedDuration (duration : Time) (rs : List DeletedRange) : Time :=
  ((getVisibleRanges duration rs).map segWidth).sum

/-- The accumulation loop of `getCollapsedPercentForTime` (src/unnamed/
part_008, lines 1044–1054). -/
def percentWalk (time : Time) : Time → List VisSeg → Time
  | acc, [] => acc
  | acc, seg :: rest =>
    if seg.«end» ≤ time then percentWalk time (acc + (seg.«end» - seg.start)) rest
    else if seg.start < time then acc + (time - seg.start)
    else acc

/-- Method `getCollapsedPercentForTime` (src/unnamed/part_008, lines 1040–1056). -/
def getCollapsedPercentForTime (duration : Time) (rs : List DeletedRange) (time : Time) : Time :=
  let total := getCollapsedDuration duration rs
  if total ≤ 0 then 0
  else clamp (percentWalk time 0 (getVisibleRanges duration rs) / total * 100) 0 100

/-- The consumption loop of `getTimeForCollapsedTime` (src/unnamed/part_008,
lines 1069–1077). -/
def timeWalk (duration : Time) : Time → Time → List VisSeg → Time
  | _, _, [] => duration
  | t, acc, seg :: rest =>
    let segDur := seg.«end» - seg.start
    if t ≤ acc + segDur then seg.start + max 0 (t - acc)
    else timeWalk duration t (acc + segDur) rest

/-- Method `getTimeForCollapsedTime` (src/unnamed/part_008, lines 1065–1079). -/
def getTimeForCollapsedTime (duration : Time) (rs : List DeletedRange)
    (collapsedTime : Time) : Time :=
  let total := getCollapsedDuration duration rs
  let t := max 0 (min total collapsedTime)
  timeWalk duration t 0 (getVisibleRanges duration rs)

/-- Method `getTimeForCollapsedPercent` (src/unnamed/part_008, lines 1058–1063). -/
def getTimeForCollapsedPercent (duration : Time) (rs : List DeletedRange)
    (percent : Time) : Time :=
  let total := getCollapsedDuration duration rs
  if total ≤ 0 then 0
  else getTimeForCollapsedTime duration rs (clamp percent 0 100 / 100 * total)

/-! ## Playback guard (src/unnamed/part_008) -/

/-- Method `isTimeInDeletedRange` (src/unnamed/part_008, lines 125–128). -/
def isTimeInDeletedRange (rs : List DeletedRange) (timeSec : Time) : Bool :=
  rs.any fun r => decide (r.start ≤ timeSec) && decide (timeSec < r.«end»)

/-- The safety-bounded while-loop of `getNextNonDeletedTime`
(src/unnamed/part_008, lines 135–141), with explicit fuel (`safety < 100`). -/
def skipLoop (rs : List DeletedRange) : Nat → Time → Time
  | 0, t => t
  | Nat.succ n, t =>
    if isTimeInDeletedRange rs t then
      match rs.find? (fun r => decide (r.start ≤ t) && decide (t < r.«end»)) with
      | some covering => skipLoop rs n covering.«end»
      | none => t
    else t

/-- Method `getNextNonDeletedTime` (src/unnamed/part_008, lines 130–145). -/
def getNextNonDeletedTime (duration : Time) (rs : List DeletedRange) (timeSec : Time) : Time :=
  if duration ≤ 0 then 0
  else
    let t := max 0 (min duration timeSec)
    min duration (skipLoop rs 100 t + 1/1000)

/-- Outcome of the deleted-range check of one `smoothUpdateLoop` tick. -/
inductive SkipDecision
  | keep
  | seek (target : Time)
deriving DecidableEq, Repr

/-- The deleted-range skip check of `smoothUpdateLoop` (src/unnamed/part_008,
lines 791–812): the first range whose window
`[start − 0.005, end)` contains the current time triggers a seek to
`getNextNonDeletedTime(r.end)` unless `playThroughDeleted` is set. -/
def deletedSkipDecision (duration : Time) (rs : List DeletedRange)
    (playThroughDeleted : Bool) (realCurrentTime : Time) : SkipDecision :=
  match rs.find? (fun r =>
      decide (r.start - 1/200 ≤ realCurrentTime) && decide (realCurrentTime < r.«end»)) with
  | some r =>
    if playThroughDeleted then SkipDecision.keep
    else SkipDecision.seek (getNextNonDeletedTime duration rs r.«end»)
  | none => SkipDecision.keep

/-- Outcome of `checkSelectionBoundaryUltraPrecise` on one tick. -/
inductive BoundaryAction
  | keep
  | loopTo (target : Time)
  | pauseAt (target : Time)
deriving DecidableEq, Repr

/-- Method `checkSelectionBoundaryUltraPrecise` (src/unnamed/part_008, lines
820–841): at `t ≥ selectionEnd − 0.005`, loop back to the selection start
(or 0) when looping, else pause and seek back to
`max(selectionStart ?? 0, selectionEnd − 0.3)`. -/
def checkSelectionBoundaryUltraPrecise (isPlaying : Bool)
    (selectionStartSec selectionEndSec : Option Time) (isLooping : Bool)
    (currentTime : Time) : BoundaryAction :=
  if !isPlaying then BoundaryAction.keep
  else
    match selectionEndSec with
    | none => BoundaryAction.keep
    | some selEnd =>
      if selEnd - 1/200 ≤ currentTime then
        if isLooping then
          BoundaryAction.loopTo (match selectionStartSec with | some s => s | none => 0)
        else
          BoundaryAction.pauseAt
            (max (match selectionStartSec with | some s => s | none => 0) (selEnd - 3/10))
      else BoundaryAction.keep

/-! ## Selection state (src/js/state.js) -/

/-- The selection slice of `AppState.state`. -/
structure SelectionState where
  selectionStartSec : Option Time
  selectionEndSec : Option Time
deriving DecidableEq, Repr

/-- The payload emitted on the `'selection'` channel. -/
inductive SelectionEvent
  | cleared
  | set (startSec endSec : Time)
deriving DecidableEq, Repr

/-- Method `AppState.setSelection` (src/js/state.js, lines 106–124) together with
`clearSelection` (lines 126–133): a `null` at either endpoint clears the
whole selection and emits a `null` `'selection'` event; otherwise the
endpoints are min/max-ordered, stored, and emitted. -/
def setSelection (startSec endSec : Option Time) : SelectionState × SelectionEvent :=
  match startSec, endSec with
  | some s, some e =>
    (⟨some (min s e), some (max s e)⟩, SelectionEvent.set (min s e) (max s e))
  | _, _ => (⟨none, none⟩, SelectionEvent.cleared)

/-! ## Export descriptor -/

/-- A `{startSec, endSec}` pair as synced into the app state and consumed by
the export worker. -/
structure ExportRange where
  startSec : Time
  endSec : Time
deriving DecidableEq, Repr

/-- The sync in src/unnamed/part_008, lines 970–973 (and identically at
997–1000 etc.): `this.deletedRanges.map(r => ({startSec: r.start, endSec: r.end}))`
— the `expanded` flag is not forwarded. -/
def syncDeletedRangesToState (rs : List DeletedRange) : List ExportRange :=
  rs.map fun r => ExportRange.mk r.start r.«end»

/-- The export operation descriptor `{cut?, deletedRanges}` (crop elided; it
does not interact with deleted ranges). -/
structure Operations where
  cut : Option ExportRange
  deletedRanges : List ExportRange
deriving DecidableEq, Repr

/-- Modelled from the spec: the current `getCurrentOperations` (and the
`AppState.setDeletedRanges` it reads) are missing from src —
src/js/export-manager.js and src/js/state.js are earlier snapshots that
lack the `deletedRanges` plumbing, while src/unnamed/part_008 calls
`appState.setDeletedRanges(...)` and src/unnamed/part_011 reads
`operations.deletedRanges`.  Per §4.5/§6 of the spec the descriptor is
`{cut?: {startSec, endSec}, deletedRanges: [{startSec, endSec}], crop?}`,
where `deletedRanges` lists the model's deleted ranges ignoring the
`expanded` display flag. -/
def getCurrentOperations (selectionStartSec selectionEndSec : Option Time)
    (stateDeletedRanges : List ExportRange) : Operations :=
  { cut :=
      match selectionStartSec, selectionEndSec with
      | some s, some e => some ⟨s, e⟩
      | _, _ => none
    deletedRanges := stateDeletedRanges }

/-- The worker's view (src/unnamed/part_011, line 82):
`Array.isArray(operations.deletedRanges) ? operations.deletedRanges : []`. -/
def workerDeletedRanges (ops : Operations) : List ExportRange :=
  ops.deletedRanges

/-! ## Invariants of normalization -/

/-- Separation established by the merge loop: consecutive normalized ranges
are more than `1e-6` apart. -/
def rangesSep (a b : DeletedRange) : Prop := a.«end» + eps < b.start

/-- The invariant of the stored `deletedRanges` list: pairwise separated by
more than the merge tolerance, and every range has positive width. -/
def WellFormed (rs : List DeletedRange) : Prop :=
  List.Pairwise rangesSep rs ∧ ∀ r ∈ rs, r.start < r.«end»

instance : DecidableRel rangesSep := fun a b =>
  inferInstanceAs (Decidable (a.«end» + eps < b.start))

instance : DecidablePred WellFormed := fun rs =>
  inferInstanceAs (Decidable (List.Pairwise rangesSep rs ∧ ∀ r ∈ rs, r.start < r.«end»))

/-- Everything the merge loop of `normalizeDeletedRanges` guarantees, stated
for `mergeSorted cur l` relative to the pending element `cur` and the
remaining sorted input `l`. -/
structure MergeInv (cur : DeletedRange) (l : List DeletedRange)
    (out : List DeletedRange) : Prop where
  sep : List.Pairwise rangesSep out
  width : ∀ o ∈ out, o.start < o.«end»
  startsGe : ∀ o ∈ out, cur.start ≤ o.start
  headEq : ∃ o0 t, out = o0 :: t ∧ o0.start = cur.start ∧ cur.«end» ≤ o0.«end»
  origin : ∀ o ∈ out, (o.start = cur.start ∨ ∃ x ∈ l, o.start = x.start)
      ∧ (o.«end» = cur.«end» ∨ ∃ x ∈ l, o.«end» = x.«end»)
  expandedChar : ∀ o ∈ out,
      (o.expanded = true ↔
        ((o.start ≤ cur.start ∧ cur.start < o.«end») → cur.expanded = true)
        ∧ ∀ x ∈ l, (o.start ≤ x.start ∧ x.start < o.«end») → x.expanded = true)

theorem eps_pos : (0 : Time) < eps := by norm_num [eps]

theorem mergeSorted_master (l : List DeletedRange) : ∀ (cur : DeletedRange),
    (∀ x ∈ l, cur.start ≤ x.start) → List.Pairwise rleD l →
    cur.start < cur.«end» → (∀ x ∈ l, x.start < x.«end») →
    MergeInv cur l (mergeSorted cur l) := by
  induction l with
  | nil =>
    intro cur _ _ hw _
    refine ⟨?_, ?_, ?_, ?_, ?_, ?_⟩
    · simp [mergeSorted]
    · simp only [mergeSorted, List.mem_singleton]
      rintro o rfl; exact hw
    · simp only [mergeSorted, List.mem_singleton]
      rintro o rfl; exact le_refl _
    · exact ⟨cur, [], rfl, rfl, le_refl _⟩
    · simp only [mergeSorted, List.mem_singleton]
      rintro o rfl
      exact ⟨Or.inl rfl, Or.inl rfl⟩
    · simp only [mergeSorted, List.mem_singleton]
      rintro o rfl
      constructor
      · intro h
        exact ⟨fun _ => h, by simp⟩
      · intro ⟨h1, _⟩
        exact h1 ⟨le_refl _, hw⟩
  | cons r rest ih =>
    intro cur hstarts hsort hw hlw
    rw [List.pairwise_cons] at hsort
    obtain ⟨hr_rest, hsort_rest⟩ := hsort
    have hrw : r.start < r.«end» := hlw r (by simp)
    have hcur_r : cur.start ≤ r.start := hstarts r (by simp)
    by_cases hmerge : r.start ≤ cur.«end» + eps
    · -- merge branch
      rw [mergeSorted, if_pos hmerge]
      set cur' : DeletedRange :=
        ⟨cur.start, max cur.«end» r.«end», cur.expanded && r.expanded⟩ with hcur'
      have hstarts' : ∀ x ∈ rest, cur'.start ≤ x.start := by
        intro x hx
        exact le_trans hcur_r (hr_rest x hx)
      have hw' : cur'.start < cur'.«end» := lt_of_lt_of_le hw (le_max_left _ _)
      have hlw' : ∀ x ∈ rest, x.start < x.«end» := fun x hx => hlw x (by simp [hx])
      obtain ⟨sep', width', startsGe', headEq', origin', expand'⟩ :=
        ih cur' hstarts' hsort_rest hw' hlw'
      obtain ⟨o0, t, hout, ho0s, ho0e⟩ := headEq'
      have ho0w : o0.start < o0.«end» := width' o0 (by rw [hout]; simp)
      have htail_gt : ∀ o ∈ t, o0.«end» + eps < o.start := by
        intro o ho
        have := sep'
        rw [hout, List.pairwise_cons] at this
        exact this.1 o ho
      refine ⟨sep', width', ?_, ?_, ?_, ?_⟩
      · intro o ho
        exact startsGe' o ho
      · exact ⟨o0, t, hout, ho0s, le_trans (le_max_left _ _) ho0e⟩
      · intro o ho
        obtain ⟨hos, hoe⟩ := origin' o ho
        constructor
        · rcases hos with h | ⟨x, hx, h⟩
          · exact Or.inl h
          · exact Or.inr ⟨x, by simp [hx], h⟩
        · rcases hoe with h | ⟨x, hx, h⟩
          · rcases max_cases cur.«end» r.«end» with ⟨hm, _⟩ | ⟨hm, _⟩
            · exact Or.inl (by rw [h, hcur'] at *; simpa using hm)
            · refine Or.inr ⟨r, by simp, ?_⟩
              rw [h, hcur'] at *; simpa using hm
          · exact Or.inr ⟨x, by simp [hx], h⟩
      · intro o ho
        have hchar := expand' o ho
        by_cases hhead : o = o0
        · subst hhead
          have hP : o.start ≤ cur.start ∧ cur.start < o.«end» := by
            constructor
            · rw [ho0s]
            · calc cur.start < cur.«end» := hw
                _ ≤ max cur.«end» r.«end» := le_max_left _ _
                _ ≤ o.«end» := ho0e
          have hQ : o.start ≤ r.start ∧ r.start < o.«end» := by
            constructor
            · rw [ho0s]; exact hcur_r
            · calc r.start < r.«end» := hrw
                _ ≤ max cur.«end» r.«end» := le_max_right _ _
                _ ≤ o.«end» := ho0e
          have hP' : o.start ≤ cur'.start ∧ cur'.start < o.«end» := by
            simpa [hcur'] using hP
          rw [hchar]
          constructor
          · intro ⟨h1, h2⟩
            have := h1 hP'
            simp only [hcur', Bool.and_eq_true] at this
            refine ⟨fun _ => this.1, ?_⟩
            intro x hx hcond
            rcases List.mem_cons.mp hx with h | h
            · subst h; exact this.2
            · exact h2 x h hcond
          · intro ⟨h1, h2⟩
            refine ⟨?_, ?_⟩
            · intro _
              simp only [hcur', Bool.and_eq_true]
              exact ⟨h1 hP, h2 r (by simp) hQ⟩
            · intro x hx hcond
              exact h2 x (by simp [hx]) hcond
        · have hot : o ∈ t := by
            rw [hout] at ho
            rcases List.mem_cons.mp ho with h | h
            · exact absurd h hhead
            · exact h
          have hogt : o0.«end» + eps < o.start := htail_gt o hot
          have hP_false : ¬(o.start ≤ cur.start ∧ cur.start < o.«end») := by
            intro ⟨h1, _⟩
            have : cur.start < o.start := by
              calc cur.start = o0.start := ho0s.symm
                _ < o0.«end» := ho0w
                _ < o0.«end» + eps := by linarith [eps_pos]
                _ < o.start := hogt
            linarith
          have hP'_false : ¬(o.start ≤ cur'.start ∧ cur'.start < o.«end») := by
            simpa [hcur'] using hP_false
          have hQ_false : ¬(o.start ≤ r.start ∧ r.start < o.«end») := by
            intro ⟨h1, _⟩
            have hre : r.start < o0.«end» := by
              calc r.start < r.«end» := hrw
                _ ≤ max cur.«end» r.«end» := le_max_right _ _
                _ ≤ o0.«end» := ho0e
            have : r.start < o.start := by linarith [eps_pos]
            linarith
          rw [hchar]
          constructor
          · intro ⟨_, h2⟩
            refine ⟨fun h => absurd h hP_false, ?_⟩
            intro x hx hcond
            rcases List.mem_cons.mp hx with h | h
            · subst h; exact absurd hcond hQ_false
            · exact h2 x h hcond
          · intro ⟨_, h2⟩
            refine ⟨fun h => absurd h hP'_false, ?_⟩
            intro x hx hcond
            exact h2 x (by simp [hx]) hcond
    · -- push branch
      rw [mergeSorted, if_neg hmerge]
      push_neg at hmerge
      have hstarts' : ∀ x ∈ rest, r.start ≤ x.start := hr_rest
      have hlw' : ∀ x ∈ rest, x.start < x.«end» := fun x hx => hlw x (by simp [hx])
      obtain ⟨sep', width', startsGe', headEq', origin', expand'⟩ :=
        ih r hstarts' hsort_rest hrw hlw'
      have hcur_lt : cur.«end» + eps < r.start := hmerge
      refine ⟨?_, ?_, ?_, ?_, ?_, ?_⟩
      · rw [List.pairwise_cons]
        refine ⟨?_, sep'⟩
        intro o ho
        have : r.start ≤ o.start := startsGe' o ho
        unfold rangesSep
        linarith
      · intro o ho
        rcases List.mem_cons.mp ho with h | h
        · subst h; exact hw
        · exact width' o h
      · intro o ho
        rcases List.mem_cons.mp ho with h | h
        · subst h; exact le_refl _
        · exact le_trans hcur_r (startsGe' o h)
      · exact ⟨cur, mergeSorted r rest, rfl, rfl, le_refl _⟩
      · intro o ho
        rcases List.mem_cons.mp ho with h | h
        · subst h; exact ⟨Or.inl rfl, Or.inl rfl⟩
        · obtain ⟨hos, hoe⟩ := origin' o h
          constructor
          · rcases hos with h' | ⟨x, hx, h'⟩
            · exact Or.inr ⟨r, by simp, h'⟩
            · exact Or.inr ⟨x, by simp [hx], h'⟩
          · rcases hoe with h' | ⟨x, hx, h'⟩
            · exact Or.inr ⟨r, by simp, h'⟩
            · exact Or.inr ⟨x, by simp [hx], h'⟩
      · intro o ho
        rcases List.mem_cons.mp ho with h | h
        · subst h
          constructor
          · intro hexp
            refine ⟨fun _ => hexp, ?_⟩
            intro x hx ⟨hc1, hc2⟩
            have hxs : r.start ≤ x.start := by
              rcases List.mem_cons.mp hx with h' | h'
              · subst h'; exact le_refl _
              · exact hr_rest x h'
            have : o.start < o.«end» := hw
            exact absurd hc2 (by linarith [eps_pos])
          · intro ⟨h1, _⟩
            exact h1 ⟨le_refl _, hw⟩
        · have hchar := expand' o h
          have hoge : r.start ≤ o.start := startsGe' o h
          have hcur_cond_false : ¬(o.start ≤ cur.start ∧ cur.start < o.«end») := by
            intro ⟨h1, _⟩
            have : cur.start < cur.«end» := hw
            linarith [eps_pos]
          rw [hchar]
          constructor
          · intro ⟨h1, h2⟩
            refine ⟨fun hk => absurd hk hcur_cond_false, ?_⟩
            intro x hx hcond
            rcases List.mem_cons.mp hx with h' | h'
            · subst h'; exact h1 hcond
            · exact h2 x h' hcond
          · intro ⟨_, h2⟩
            refine ⟨fun hcond => h2 r (by simp) hcond, ?_⟩
            intro x hx hcond
            exact h2 x (by simp [hx]) hcond

/-- The sorted, width-filtered input handed to the merge loop. -/
def sortedFiltered (rs : List DeletedRange) : List DeletedRange :=
  List.insertionSort rleD (rs.filter fun r => decide (r.start < r.«end»))

theorem sortedFiltered_pairwise (rs : List DeletedRange) :
    List.Pairwise rleD (sortedFiltered rs) :=
  List.sorted_insertionSort rleD _

theorem mem_sortedFiltered (rs : List DeletedRange) (x : DeletedRange) :
    x ∈ sortedFiltered rs ↔ x ∈ rs ∧ x.start < x.«end» := by
  unfold sortedFiltered
  rw [(List.perm_insertionSort rleD _).mem_iff, List.mem_filter]
  simp

theorem normalizeDeletedRanges_eq (rs : List DeletedRange) :
    normalizeDeletedRanges rs =
      match sortedFiltered rs with
      | [] => []
      | r :: rest => mergeSorted r rest := by
  unfold normalizeDeletedRanges sortedFiltered
  by_cases h : rs.isEmpty
  · rw [if_pos h]
    rw [List.isEmpty_iff] at h
    subst h
    simp [List.insertionSort]
  · rw [if_neg h]

/-- Apply `mergeSorted_master` to the output of normalization. -/
theorem normalize_master (rs : List DeletedRange) (hne : sortedFiltered rs ≠ []) :
    ∃ r rest, sortedFiltered rs = r :: rest ∧
      normalizeDeletedRanges rs = mergeSorted r rest ∧ MergeInv r rest (mergeSorted r rest) := by
  obtain ⟨r, rest, hsf⟩ := List.exists_cons_of_ne_nil hne
  have hpw := sortedFiltered_pairwise rs
  rw [hsf, List.pairwise_cons] at hpw
  have hrw : r.start < r.«end» := by
    have := (mem_sortedFiltered rs r).mp (by rw [hsf]; simp)
    exact this.2
  have hlw : ∀ x ∈ rest, x.start < x.«end» := by
    intro x hx
    have := (mem_sortedFiltered rs x).mp (by rw [hsf]; simp [hx])
    exact this.2
  refine ⟨r, rest, hsf, ?_, ?_⟩
  · rw [normalizeDeletedRanges_eq, hsf]
  · exact mergeSorted_master rest r hpw.1 hpw.2 hrw hlw

theorem normalizeDeletedRanges_wellFormed (rs : List DeletedRange) :
    WellFormed (normalizeDeletedRanges rs) := by
  by_cases hne : sortedFiltered rs = []
  · rw [normalizeDeletedRanges_eq, hne]
    exact ⟨List.Pairwise.nil, by simp⟩
  · obtain ⟨r, rest, _, heq, inv⟩ := normalize_master rs hne
    rw [heq]
    exact ⟨inv.sep, inv.width⟩

/-- Every normalized range takes its start from some positive-width input
range's start, and its end from some input range's end. -/
theorem normalize_origin (rs : List DeletedRange) :
    ∀ o ∈ normalizeDeletedRanges rs,
      (∃ x ∈ rs, o.start = x.start) ∧ (∃ x ∈ rs, o.«end» = x.«end») := by
  by_cases hne : sortedFiltered rs = []
  · rw [normalizeDeletedRanges_eq, hne]
    simp
  · obtain ⟨r, rest, hsf, heq, inv⟩ := normalize_master rs hne
    rw [heq]
    intro o ho
    obtain ⟨hos, hoe⟩ := inv.origin o ho
    have hmem : ∀ x, x ∈ r :: rest → x ∈ rs := by
      intro x hx
      rw [← hsf] at hx
      exact ((mem_sortedFiltered rs x).mp hx).1
    constructor
    · rcases hos with h | ⟨x, hx, h⟩
      · exact ⟨r, hmem r (by simp), h⟩
      · exact ⟨x, hmem x (by simp [hx]), h⟩
    · rcases hoe with h | ⟨x, hx, h⟩
      · exact ⟨r, hmem r (by simp), h⟩
      · exact ⟨x, hmem x (by simp [hx]), h⟩

theorem normalize_bounds (rs : List DeletedRange) (lo hi : Time)
    (hb : ∀ x ∈ rs, lo ≤ x.start ∧ x.«end» ≤ hi) :
    ∀ o ∈ normalizeDeletedRanges rs, lo ≤ o.start ∧ o.«end» ≤ hi := by
  intro o ho
  obtain ⟨⟨x, hx, hxs⟩, ⟨y, hy, hye⟩⟩ := normalize_origin rs o ho
  exact ⟨hxs ▸ (hb x hx).1, hye ▸ (hb y hy).2⟩

/-- The expanded flag of a normalized range is the conjunction of the
expanded flags of the positive-width input ranges merged into it, which are
exactly those whose start lies in `[o.start, o.end)`. -/
theorem normalize_expanded_char (rs : List DeletedRange) :
    ∀ o ∈ normalizeDeletedRanges rs,
      (o.expanded = true ↔
        ∀ x ∈ rs, x.start < x.«end» → o.start ≤ x.start → x.start < o.«end» →
          x.expanded = true) := by
  by_cases hne : sortedFiltered rs = []
  · rw [normalizeDeletedRanges_eq, hne]
    simp
  · obtain ⟨r, rest, hsf, heq, inv⟩ := normalize_master rs hne
    rw [heq]
    intro o ho
    rw [inv.expandedChar o ho]
    have hmem : ∀ x, (x ∈ r :: rest ↔ x ∈ rs ∧ x.start < x.«end») := by
      intro x
      rw [← hsf, mem_sortedFiltered]
    constructor
    · intro ⟨h1, h2⟩ x hx hxw hc1 hc2
      rcases List.mem_cons.mp ((hmem x).mpr ⟨hx, hxw⟩) with h | h
      · subst h; exact h1 ⟨hc1, hc2⟩
      · exact h2 x h ⟨hc1, hc2⟩
    · intro h
      constructor
      · intro ⟨hc1, hc2⟩
        have := (hmem r).mp (by simp)
        exact h r this.1 this.2 hc1 hc2
      · intro x hx ⟨hc1, hc2⟩
        have := (hmem x).mp (by simp [hx])
        exact h x this.1 this.2 hc1 hc2

/-- Sorted-and-disjoint formulation of invariant 1, as the spec states it. -/
theorem wellFormed_sorted_disjoint {rs : List DeletedRange} (h : WellFormed rs) :
    List.Pairwise (fun a b => a.start < b.start ∧ a.«end» ≤ b.start) rs := by
  refine List.Pairwise.imp_of_mem ?_ h.1
  intro a b ha _ hab
  have haw : a.start < a.«end» := h.2 a ha
  unfold rangesSep at hab
  constructor <;> linarith [eps_pos]

/-! ## Invariants of the kept-range complement -/

/-- What the complement loop of `getKeptRanges` guarantees. -/
structure KeptInv (duration cursor : Time) (l : List DeletedRange)
    (out : List TimeRange) : Prop where
  width : ∀ k ∈ out, k.start < k.«end»
  pair : List.Pairwise (fun a b => a.«end» ≤ b.start) out
  startsGe : ∀ k ∈ out, cursor ≤ k.start
  endsLe : ∀ k ∈ out, k.«end» ≤ duration
  cross : ∀ k ∈ out, ∀ x ∈ l, k.«end» ≤ x.start ∨ x.«end» ≤ k.start
  endOrigin : ∀ k ∈ out, k.«end» = duration ∨ ∃ x ∈ l, k.«end» = x.start

theorem keptFromSorted_master (duration : Time) (l : List DeletedRange) :
    ∀ cursor : Time,
    List.Pairwise rangesSep l → (∀ x ∈ l, x.start < x.«end») →
    (∀ x ∈ l, x.«end» ≤ duration) → (∀ x ∈ l, cursor ≤ x.start) →
    KeptInv duration cursor l (keptFromSorted duration cursor l) := by
  induction l with
  | nil =>
    intro cursor _ _ _ _
    by_cases h : cursor < duration
    · simp only [keptFromSorted, if_pos h]
      refine ⟨?_, ?_, ?_, ?_, ?_, ?_⟩
      · simp only [List.mem_singleton]
        rintro k rfl
        exact h
      · simp
      · simp only [List.mem_singleton]
        rintro k rfl
        exact le_refl _
      · simp only [List.mem_singleton]
        rintro k rfl
        exact le_refl _
      · simp
      · simp only [List.mem_singleton]
        rintro k rfl
        exact Or.inl rfl
    · simp only [keptFromSorted, if_neg h]
      refine ⟨?_, ?_, ?_, ?_, ?_, ?_⟩ <;> simp
  | cons r rest ih =>
    intro cursor hsep hw hd hc
    rw [List.pairwise_cons] at hsep
    obtain ⟨hr_rest, hsep_rest⟩ := hsep
    have hrw : r.start < r.«end» := hw r (by simp)
    have hrd : r.«end» ≤ duration := hd r (by simp)
    have hcr : cursor ≤ r.start := hc r (by simp)
    have hmax : max cursor r.«end» = r.«end» := max_eq_right (by linarith)
    have hrest_hyps : ∀ x ∈ rest, r.«end» ≤ x.start := by
      intro x hx
      have := hr_rest x hx
      unfold rangesSep at this
      linarith [eps_pos]
    have ihh := ih r.«end» hsep_rest (fun x hx => hw x (by simp [hx]))
      (fun x hx => hd x (by simp [hx])) hrest_hyps
    by_cases hpc : cursor < r.start
    · simp only [keptFromSorted, if_pos hpc, hmax]
      refine ⟨?_, ?_, ?_, ?_, ?_, ?_⟩
      · intro k hk
        rcases List.mem_cons.mp hk with h | h
        · subst h; exact hpc
        · exact ihh.width k h
      · rw [List.pairwise_cons]
        refine ⟨?_, ihh.pair⟩
        intro k hk
        have := ihh.startsGe k hk
        simp only
        linarith
      · intro k hk
        rcases List.mem_cons.mp hk with h | h
        · subst h; exact le_refl _
        · have := ihh.startsGe k h
          linarith
      · intro k hk
        rcases List.mem_cons.mp hk with h | h
        · subst h
          simp only
          linarith
        · exact ihh.endsLe k h
      · intro k hk x hx
        rcases List.mem_cons.mp hk with h | h
        · subst h
          rcases List.mem_cons.mp hx with h' | h'
          · subst h'; exact Or.inl (le_refl _)
          · exact Or.inl (by have := hrest_hyps x h'; simp only; linarith)
        · rcases List.mem_cons.mp hx with h' | h'
          · subst h'
            have := ihh.startsGe k h
            exact Or.inr this
          · exact ihh.cross k h x h'
      · intro k hk
        rcases List.mem_cons.mp hk with h | h
        · subst h; exact Or.inr ⟨r, by simp⟩
        · rcases ihh.endOrigin k h with h' | ⟨x, hx, h'⟩
          · exact Or.inl h'
          · exact Or.inr ⟨x, by simp [hx], h'⟩
    · simp only [keptFromSorted, if_neg hpc, hmax]
      have hceq : cursor = r.start := le_antisymm hcr (not_lt.mp hpc)
      refine ⟨ihh.width, ihh.pair, ?_, ihh.endsLe, ?_, ?_⟩
      · intro k hk
        have := ihh.startsGe k hk
        linarith
      · intro k hk x hx
        rcases List.mem_cons.mp hx with h' | h'
        · subst h'
          exact Or.inr (ihh.startsGe k hk)
        · exact ihh.cross k hk x h'
      · intro k hk
        rcases ihh.endOrigin k hk with h' | ⟨x, hx, h'⟩
        · exact Or.inl h'
        · exact Or.inr ⟨x, by simp [hx], h'⟩

/-- The complement identity: kept width plus deleted width fills
`[cursor, duration]`. -/
theorem keptFromSorted_sum (duration : Time) (l : List DeletedRange) :
    ∀ cursor : Time,
    List.Pairwise rangesSep l → (∀ x ∈ l, x.start < x.«end») →
    (∀ x ∈ l, x.«end» ≤ duration) → (∀ x ∈ l, cursor ≤ x.start) →
    cursor ≤ duration →
    ((keptFromSorted duration cursor l).map (fun k => k.«end» - k.start)).sum
      = (duration - cursor) - (l.map (fun r => r.«end» - r.start)).sum := by
  induction l with
  | nil =>
    intro cursor _ _ _ _ hcd
    by_cases h : cursor < duration
    · simp [keptFromSorted, if_pos h]
    · have : cursor = duration := le_antisymm hcd (not_lt.mp h)
      simp [keptFromSorted, if_neg h, this]
  | cons r rest ih =>
    intro cursor hsep hw hd hc hcd
    rw [List.pairwise_cons] at hsep
    obtain ⟨hr_rest, hsep_rest⟩ := hsep
    have hrw : r.start < r.«end» := hw r (by simp)
    have hrd : r.«end» ≤ duration := hd r (by simp)
    have hcr : cursor ≤ r.start := hc r (by simp)
    have hmax : max cursor r.«end» = r.«end» := max_eq_right (by linarith)
    have hrest_hyps : ∀ x ∈ rest, r.«end» ≤ x.start := by
      intro x hx
      have := hr_rest x hx
      unfold rangesSep at this
      linarith [eps_pos]
    have ihh := ih r.«end» hsep_rest (fun x hx => hw x (by simp [hx]))
      (fun x hx => hd x (by simp [hx])) hrest_hyps hrd
    by_cases hpc : cursor < r.start
    · simp only [keptFromSorted, if_pos hpc, hmax, List.map_cons, List.sum_cons, ihh]
      try ring
    · have hceq : cursor = r.start := le_antisymm hcr (not_lt.mp hpc)
      simp only [keptFromSorted, if_neg hpc, hmax, ihh, List.map_cons, List.sum_cons]
      rw [hceq]
      ring

/-- Every instant of `[cursor, duration]` is covered by a kept range or by a
deleted range. -/
theorem keptFromSorted_coverage (duration : Time) (l : List DeletedRange) :
    ∀ cursor t : Time,
    List.Pairwise rangesSep l → (∀ x ∈ l, x.start < x.«end») →
    (∀ x ∈ l, x.«end» ≤ duration) → (∀ x ∈ l, cursor ≤ x.start) →
    cursor < duration → cursor ≤ t → t ≤ duration →
    (∃ k ∈ keptFromSorted duration cursor l, k.start ≤ t ∧ t ≤ k.«end»)
      ∨ (∃ x ∈ l, x.start ≤ t ∧ t ≤ x.«end») := by
  induction l with
  | nil =>
    intro cursor t _ _ _ _ hcd hct htd
    left
    simp only [keptFromSorted, if_pos hcd]
    exact ⟨⟨cursor, duration⟩, by simp, hct, htd⟩
  | cons r rest ih =>
    intro cursor t hsep hw hd hc hcd hct htd
    rw [List.pairwise_cons] at hsep
    obtain ⟨hr_rest, hsep_rest⟩ := hsep
    have hrw : r.start < r.«end» := hw r (by simp)
    have hrd : r.«end» ≤ duration := hd r (by simp)
    have hcr : cursor ≤ r.start := hc r (by simp)
    have hmax : max cursor r.«end» = r.«end» := max_eq_right (by linarith)
    have hrest_hyps : ∀ x ∈ rest, r.«end» ≤ x.start := by
      intro x hx
      have := hr_rest x hx
      unfold rangesSep at this
      linarith [eps_pos]
    by_cases htr : t ≤ r.«end»
    · by_cases htrs : t ≤ r.start
      · by_cases hpc : cursor < r.start
        · left
          simp only [keptFromSorted, if_pos hpc, hmax]
          exact ⟨⟨cursor, r.start⟩, by simp, hct, htrs⟩
        · right
          have hceq : cursor = r.start := le_antisymm hcr (not_lt.mp hpc)
          exact ⟨r, by simp, by rw [← hceq]; exact hct, htr⟩
      · right
        exact ⟨r, by simp, le_of_lt (not_le.mp htrs), htr⟩
    · have htr' : r.«end» < t := not_le.mp htr
      have hrec := ih r.«end» t hsep_rest (fun x hx => hw x (by simp [hx]))
        (fun x hx => hd x (by simp [hx])) hrest_hyps (by linarith) (le_of_lt htr') htd
      by_cases hpc : cursor < r.start
      · simp only [keptFromSorted, if_pos hpc, hmax]
        rcases hrec with ⟨k, hk, hcov⟩ | ⟨x, hx, hcov⟩
        · exact Or.inl ⟨k, by simp [hk], hcov⟩
        · exact Or.inr ⟨x, by simp [hx], hcov⟩
      · simp only [keptFromSorted, if_neg hpc, hmax]
        rcases hrec with ⟨k, hk, hcov⟩ | ⟨x, hx, hcov⟩
        · exact Or.inl ⟨k, hk, hcov⟩
        · exact Or.inr ⟨x, by simp [hx], hcov⟩

/-! ## Invariants of the visible-segment list -/

/-- Symmetric disjointness of two visible segments. -/
def segDisj (a b : VisSeg) : Prop := a.«end» ≤ b.start ∨ b.«end» ≤ a.start

theorem segDisj_symm : Symmetric segDisj := fun _ _ h => h.symm

/-- What the neighbor-merging loop of `getVisibleRanges` guarantees. -/
structure SegInv (cur : VisSeg) (out : List VisSeg) : Prop where
  pair : List.Pairwise (fun a b => a.«end» ≤ b.start) out
  width : ∀ s ∈ out, s.start < s.«end»
  startsGe : ∀ s ∈ out, cur.start ≤ s.start

theorem mergeSegs_master (l : List VisSeg) : ∀ cur : VisSeg,
    List.Pairwise (fun a b => a.«end» ≤ b.start) (cur :: l) →
    (∀ s ∈ cur :: l, s.start < s.«end») →
    SegInv cur (mergeSegs cur l) := by
  induction l with
  | nil =>
    intro cur _ hw
    refine ⟨?_, ?_, ?_⟩
    · simp [mergeSegs]
    · simp only [mergeSegs, List.mem_singleton]
      rintro s rfl
      exact hw s (by simp)
    · simp only [mergeSegs, List.mem_singleton]
      rintro s rfl
      exact le_refl _
  | cons s rest ih =>
    intro cur hpw hw
    rw [List.pairwise_cons] at hpw
    obtain ⟨hcur_all, hpw_rest⟩ := hpw
    have hcs : cur.«end» ≤ s.start := hcur_all s (by simp)
    have hsw : s.start < s.«end» := hw s (by simp)
    have hcw : cur.start < cur.«end» := hw cur (by simp)
    by_cases hm : s.deleted = cur.deleted ∧ s.start ≤ cur.«end» + eps
    · rw [mergeSegs, if_pos hm]
      set cur' : VisSeg := ⟨cur.start, max cur.«end» s.«end», cur.deleted⟩ with hcur'
      have hmax : max cur.«end» s.«end» = s.«end» := max_eq_right (by linarith)
      have hpw' : List.Pairwise (fun a b => a.«end» ≤ b.start) (cur' :: rest) := by
        rw [List.pairwise_cons]
        constructor
        · intro x hx
          have := hpw_rest
          rw [List.pairwise_cons] at this
          have hsx : s.«end» ≤ x.start := this.1 x hx
          simp only [hcur', hmax]
          exact hsx
        · rw [List.pairwise_cons] at hpw_rest
          exact hpw_rest.2
      have hw' : ∀ x ∈ cur' :: rest, x.start < x.«end» := by
        intro x hx
        rcases List.mem_cons.mp hx with h | h
        · subst h
          simp only [hcur', hmax]
          linarith
        · exact hw x (by simp [h])
      have ihh := ih cur' hpw' hw'
      refine ⟨ihh.pair, ihh.width, ?_⟩
      · intro o ho
        have := ihh.startsGe o ho
        simpa [hcur'] using this
    · rw [mergeSegs, if_neg hm]
      have hpw' : List.Pairwise (fun a b => a.«end» ≤ b.start) (s :: rest) := hpw_rest
      have hw' : ∀ x ∈ s :: rest, x.start < x.«end» := fun x hx => hw x (by simp [hx])
      have ihh := ih s hpw' hw'
      refine ⟨?_, ?_, ?_⟩
      · rw [List.pairwise_cons]
        constructor
        · intro o ho
          have := ihh.startsGe o ho
          linarith
        · exact ihh.pair
      · intro o ho
        rcases List.mem_cons.mp ho with h | h
        · subst h; exact hcw
        · exact ihh.width o h
      · intro o ho
        rcases List.mem_cons.mp ho with h | h
        · subst h; exact le_refl _
        · exact le_trans (le_trans hcw.le hcs) (ihh.startsGe o h)

/-- If no adjacent pair satisfies the merge condition, the merging loop is
the identity. -/
theorem mergeSegs_eq_of_noMerge (l : List VisSeg) : ∀ cur : VisSeg,
    List.Chain' (fun a b => ¬(b.deleted = a.deleted ∧ b.start ≤ a.«end» + eps)) (cur :: l) →
    mergeSegs cur l = cur :: l := by
  induction l with
  | nil => intro cur _; rfl
  | cons s rest ih =>
    intro cur hchain
    rw [List.chain'_cons] at hchain
    rw [mergeSegs, if_neg hchain.1, ih s hchain.2]

/-- The two invariant facts needed about `getVisibleRanges` output. -/
structure VisInv (out : List VisSeg) : Prop where
  pair : List.Pairwise (fun a b => a.«end» ≤ b.start) out
  width : ∀ s ∈ out, s.start < s.«end»

/-- The pre-merge visible-segment list: kept ranges plus expanded deleted
ranges of the normalized list. -/
def visCombined (duration : Time) (rs : List DeletedRange) : List VisSeg :=
  let ns := normalizeDeletedRanges rs
  ((keptFromSorted duration 0 ns).map fun k => VisSeg.mk k.start k.«end» false)
    ++ ((ns.filter fun r => r.expanded).map fun r => VisSeg.mk r.start r.«end» true)

theorem getVisibleRanges_eq (duration : Time) (rs : List DeletedRange) :
    getVisibleRanges duration rs =
      match List.insertionSort rleS (visCombined duration rs) with
      | [] => []
      | s :: rest => mergeSegs s rest := rfl

theorem visCombined_facts (duration : Time) (rs : List DeletedRange)
    (hd : 0 ≤ duration) (hb : ∀ r ∈ rs, 0 ≤ r.start ∧ r.«end» ≤ duration) :
    (∀ s ∈ visCombined duration rs, s.start < s.«end»)
    ∧ (∀ s ∈ visCombined duration rs, 0 ≤ s.start ∧ s.«end» ≤ duration)
    ∧ List.Pairwise segDisj (visCombined duration rs) := by
  have hwf := normalizeDeletedRanges_wellFormed rs
  have hnb := normalize_bounds rs 0 duration hb
  have hki := keptFromSorted_master duration (normalizeDeletedRanges rs) 0 hwf.1 hwf.2
    (fun x hx => (hnb x hx).2) (fun x hx => (hnb x hx).1)
  unfold visCombined
  refine ⟨?_, ?_, ?_⟩
  · intro s hs
    rcases List.mem_append.mp hs with h | h
    · obtain ⟨k, hk, rfl⟩ := List.mem_map.mp h
      exact hki.width k hk
    · obtain ⟨r, hr, rfl⟩ := List.mem_map.mp h
      exact hwf.2 r (List.mem_of_mem_filter hr)
  · intro s hs
    rcases List.mem_append.mp hs with h | h
    · obtain ⟨k, hk, rfl⟩ := List.mem_map.mp h
      exact ⟨hki.startsGe k hk, hki.endsLe k hk⟩
    · obtain ⟨r, hr, rfl⟩ := List.mem_map.mp h
      exact ⟨(hnb r (List.mem_of_mem_filter hr)).1, (hnb r (List.mem_of_mem_filter hr)).2⟩
  · rw [List.pairwise_append]
    refine ⟨?_, ?_, ?_⟩
    · rw [List.pairwise_map]
      exact hki.pair.imp (fun h => Or.inl h)
    · rw [List.pairwise_map]
      refine List.Pairwise.imp (fun h => Or.inl ?_) (hwf.1.filter _)
      unfold rangesSep at h
      linarith [eps_pos]
    · intro a ha b hb'
      obtain ⟨k, hk, rfl⟩ := List.mem_map.mp ha
      obtain ⟨r, hr, rfl⟩ := List.mem_map.mp hb'
      exact hki.cross k hk r (List.mem_of_mem_filter hr)

theorem getVisibleRanges_inv (duration : Time) (rs : List DeletedRange)
    (hd0 : 0 ≤ duration) (hb : ∀ r ∈ rs, 0 ≤ r.start ∧ r.«end» ≤ duration) :
    VisInv (getVisibleRanges duration rs) := by
  obtain ⟨hw, hbd, hdisj⟩ := visCombined_facts duration rs hd0 hb
  have hperm := List.perm_insertionSort rleS (visCombined duration rs)
  have hsorted : List.Pairwise rleS (List.insertionSort rleS (visCombined duration rs)) :=
    List.sorted_insertionSort rleS _
  have hdisj' : List.Pairwise segDisj (List.insertionSort rleS (visCombined duration rs)) :=
    (hperm.pairwise_iff (fun h => Or.symm h)).mpr hdisj
  have hw' : ∀ s ∈ List.insertionSort rleS (visCombined duration rs), s.start < s.«end» := by
    intro s hs
    exact hw s (hperm.mem_iff.mp hs)
  have hP : List.Pairwise (fun a b => a.«end» ≤ b.start)
      (List.insertionSort rleS (visCombined duration rs)) := by
    refine List.Pairwise.imp_of_mem ?_ (hsorted.and hdisj')
    intro a b ha hbm ⟨hle, hor⟩
    rcases hor with h | h
    · exact h
    · have hbw : b.start < b.«end» := hw' b hbm
      unfold rleS at hle
      linarith
  rw [getVisibleRanges_eq]
  rcases hsort_cases : List.insertionSort rleS (visCombined duration rs) with _ | ⟨s, rest⟩
  · exact ⟨List.Pairwise.nil, by simp⟩
  · rw [hsort_cases] at hP hw'
    have := mergeSegs_master rest s hP hw'
    exact ⟨this.pair, this.width⟩

/-! ## Round-trip lemmas for the collapsed-time mapping -/

theorem percentWalk_add (time : Time) (l : List VisSeg) : ∀ a : Time,
    percentWalk time a l = a + percentWalk time 0 l := by
  induction l with
  | nil => intro a; simp [percentWalk]
  | cons seg rest ih =>
    intro a
    by_cases h1 : seg.«end» ≤ time
    · simp only [percentWalk, if_pos h1]
      rw [ih (a + (seg.«end» - seg.start)), ih (0 + (seg.«end» - seg.start))]
      ring
    · by_cases h2 : seg.start < time
      · simp only [percentWalk, if_neg h1, if_pos h2]
        ring
      · simp only [percentWalk, if_neg h1, if_neg h2]
        ring

theorem percentWalk_nonneg (time : Time) (l : List VisSeg)
    (hw : ∀ s ∈ l, s.start < s.«end») : 0 ≤ percentWalk time 0 l := by
  induction l with
  | nil => simp [percentWalk]
  | cons seg rest ih =>
    have hsw : seg.start < seg.«end» := hw seg (by simp)
    have ih' := ih (fun s hs => hw s (by simp [hs]))
    by_cases h1 : seg.«end» ≤ time
    · simp only [percentWalk, if_pos h1]
      rw [percentWalk_add]
      linarith
    · by_cases h2 : seg.start < time
      · simp only [percentWalk, if_neg h1, if_pos h2]
        linarith
      · simp only [percentWalk, if_neg h1, if_neg h2]
        exact le_refl _

theorem percentWalk_le_sum (time : Time) (l : List VisSeg)
    (hw : ∀ s ∈ l, s.start < s.«end») :
    percentWalk time 0 l ≤ (l.map segWidth).sum := by
  induction l with
  | nil => simp [percentWalk]
  | cons seg rest ih =>
    have hsw : seg.start < seg.«end» := hw seg (by simp)
    have ih' := ih (fun s hs => hw s (by simp [hs]))
    have hsum : 0 ≤ (rest.map segWidth).sum := by
      refine List.sum_nonneg ?_
      intro x hx
      obtain ⟨s, hs, rfl⟩ := List.mem_map.mp hx
      have := hw s (by simp [hs])
      unfold segWidth
      linarith
    have hW : segWidth seg = seg.«end» - seg.start := rfl
    simp only [List.map_cons, List.sum_cons]
    by_cases h1 : seg.«end» ≤ time
    · simp only [percentWalk, if_pos h1]
      rw [percentWalk_add]
      linarith [hW]
    · by_cases h2 : seg.start < time
      · simp only [percentWalk, if_neg h1, if_pos h2]
        push_neg at h1
        linarith [hW]
      · simp only [percentWalk, if_neg h1, if_neg h2]
        linarith [hW]

theorem percentWalk_zero (time : Time) (l : List VisSeg)
    (hw : ∀ s ∈ l, s.start < s.«end») (hge : ∀ s ∈ l, time ≤ s.start) :
    percentWalk time 0 l = 0 := by
  cases l with
  | nil => simp [percentWalk]
  | cons seg rest =>
    have hsw : seg.start < seg.«end» := hw seg (by simp)
    have hgs : time ≤ seg.start := hge seg (by simp)
    have h1 : ¬(seg.«end» ≤ time) := by linarith
    have h2 : ¬(seg.start < time) := by linarith
    simp only [percentWalk, if_neg h1, if_neg h2]

theorem percentWalk_pos (time : Time) (l : List VisSeg)
    (hw : ∀ s ∈ l, s.start < s.«end»)
    (hpair : List.Pairwise (fun a b => a.«end» ≤ b.start) l)
    (seg : VisSeg) (hseg : seg ∈ l) (ht : seg.start < time) :
    0 < percentWalk time 0 l := by
  induction l with
  | nil => simp at hseg
  | cons c rest ih =>
    have hcw : c.start < c.«end» := hw c (by simp)
    rw [List.pairwise_cons] at hpair
    rcases List.mem_cons.mp hseg with h | h
    · subst h
      by_cases h1 : seg.«end» ≤ time
      · simp only [percentWalk, if_pos h1]
        rw [percentWalk_add]
        have := percentWalk_nonneg time rest (fun s hs => hw s (by simp [hs]))
        linarith
      · simp only [percentWalk, if_neg h1, if_pos ht]
        linarith
    · have hcs : c.«end» ≤ seg.start := hpair.1 seg h
      have h1 : c.«end» ≤ time := by linarith
      simp only [percentWalk, if_pos h1]
      rw [percentWalk_add]
      have := ih (fun s hs => hw s (by simp [hs])) hpair.2 h
      linarith

theorem timeWalk_shift (d : Time) (l : List VisSeg) : ∀ a q : Time,
    timeWalk d (a + q) a l = timeWalk d q 0 l := by
  induction l with
  | nil => intro a q; simp [timeWalk]
  | cons seg rest ih =>
    intro a q
    by_cases h : q ≤ seg.«end» - seg.start
    · have h1 : a + q ≤ a + (seg.«end» - seg.start) := by linarith
      have h2 : q ≤ 0 + (seg.«end» - seg.start) := by linarith
      simp only [timeWalk, if_pos h1, if_pos h2]
      have e1 : a + q - a = q := by ring
      have e2 : q - 0 = q := by ring
      rw [e1, e2]
    · have h1 : ¬(a + q ≤ a + (seg.«end» - seg.start)) := by
        intro hc; exact h (by linarith)
      have h2 : ¬(q ≤ 0 + (seg.«end» - seg.start)) := by
        intro hc; exact h (by linarith)
      simp only [timeWalk, if_neg h1, if_neg h2]
      have e1 : a + q = (a + (seg.«end» - seg.start)) + (q - (seg.«end» - seg.start)) := by ring
      have e2 : q = (0 + (seg.«end» - seg.start)) + (q - (seg.«end» - seg.start)) := by ring
      rw [e1, ih (a + (seg.«end» - seg.start)) (q - (seg.«end» - seg.start))]
      conv_rhs => rw [e2, ih (0 + (seg.«end» - seg.start)) (q - (seg.«end» - seg.start))]

/-- The heart of the round-trip property: walking the collapsed offset of
`t` back through the visible segments returns `t`, provided `t` lies in a
segment but is not the left endpoint of a segment that follows a gap. -/
theorem walk_roundTrip (d : Time) (l : List VisSeg)
    (hpair : List.Pairwise (fun a b => a.«end» ≤ b.start) l)
    (hw : ∀ s ∈ l, s.start < s.«end»)
    (t : Time) (seg : VisSeg) (hseg : seg ∈ l)
    (h1 : seg.start < t) (h2 : t ≤ seg.«end») :
    timeWalk d (percentWalk t 0 l) 0 l = t := by
  induction l with
  | nil => simp at hseg
  | cons c rest ih =>
    rw [List.pairwise_cons] at hpair
    have hcw : c.start < c.«end» := hw c (by simp)
    have hwr : ∀ s ∈ rest, s.start < s.«end» := fun s hs => hw s (by simp [hs])
    rcases List.mem_cons.mp hseg with hc | hc
    · subst hc
      by_cases hce : seg.«end» ≤ t
      · -- t = seg.end
        have hte : t = seg.«end» := le_antisymm h2 hce
        have hzero : percentWalk t 0 rest = 0 := by
          refine percentWalk_zero t rest hwr ?_
          intro s hs
          have := hpair.1 s hs
          linarith
        simp only [percentWalk, if_pos hce]
        rw [percentWalk_add, hzero]
        have hcond : 0 + (seg.«end» - seg.start) + 0 ≤ 0 + (seg.«end» - seg.start) := by linarith
        simp only [timeWalk, if_pos hcond]
        rw [hte]
        have : max 0 (0 + (seg.«end» - seg.start) + 0 - 0) = seg.«end» - seg.start := by
          rw [max_eq_right] <;> linarith
        rw [this]
        ring
      · -- seg.start < t < seg.end
        push_neg at hce
        simp only [percentWalk, if_neg (not_le.mpr hce), if_pos h1]
        have hcond : 0 + (t - seg.start) ≤ 0 + (seg.«end» - seg.start) := by linarith
        simp only [timeWalk, if_pos hcond]
        have : max 0 (0 + (t - seg.start) - 0) = t - seg.start := by
          rw [max_eq_right] <;> linarith
        rw [this]
        ring
    · -- seg is in the tail
      have hcs : c.«end» ≤ seg.start := hpair.1 seg hc
      have hct : c.«end» ≤ t := by linarith
      simp only [percentWalk, if_pos hct]
      rw [percentWalk_add]
      have hpos : 0 < percentWalk t 0 rest :=
        percentWalk_pos t rest hwr hpair.2 seg hc h1
      have hcond : ¬(0 + (c.«end» - c.start) + percentWalk t 0 rest
          ≤ 0 + (c.«end» - c.start)) := by
        intro hcon
        linarith
      simp only [timeWalk, if_neg hcond]
      have e1 : 0 + (c.«end» - c.start) + percentWalk t 0 rest
          = (0 + (c.«end» - c.start)) + percentWalk t 0 rest := by ring
      rw [e1, timeWalk_shift d rest (0 + (c.«end» - c.start)) (percentWalk t 0 rest)]
      exact ih hpair.2 hwr hc

theorem getCollapsedDuration_eq (d : Time) (rs : List DeletedRange) :
    getCollapsedDuration d rs = ((getVisibleRanges d rs).map segWidth).sum := rfl

theorem getCollapsedDuration_pos (d : Time) (rs : List DeletedRange)
    (hinv : VisInv (getVisibleRanges d rs)) (seg : VisSeg)
    (hseg : seg ∈ getVisibleRanges d rs) : 0 < getCollapsedDuration d rs := by
  rw [getCollapsedDuration_eq]
  have hnn : ∀ x ∈ (getVisibleRanges d rs).map segWidth, 0 ≤ x := by
    intro x hx
    obtain ⟨s, hs, rfl⟩ := List.mem_map.mp hx
    have := hinv.width s hs
    unfold segWidth
    linarith
  have hmem : segWidth seg ∈ (getVisibleRanges d rs).map segWidth :=
    List.mem_map_of_mem segWidth hseg
  have hle := List.single_le_sum hnn _ hmem
  have hpos : 0 < segWidth seg := by
    have := hinv.width seg hseg
    unfold segWidth
    linarith
  linarith

/-- The amended round-trip property, proved for the generated visible
segments of any bounded model state. -/
theorem roundTrip_general (d : Time) (rs : List DeletedRange) (t : Time)
    (hd : 0 ≤ d) (hb : ∀ r ∈ rs, 0 ≤ r.start ∧ r.«end» ≤ d)
    (hcase : (∃ seg ∈ getVisibleRanges d rs, seg.start < t ∧ t ≤ seg.«end») ∨
      (∃ seg rest, getVisibleRanges d rs = seg :: rest ∧ t = seg.start)) :
    getTimeForCollapsedPercent d rs (getCollapsedPercentForTime d rs t) = t := by
  have hinv := getVisibleRanges_inv d rs hd hb
  rcases hcase with ⟨seg, hseg, hs1, hs2⟩ | ⟨seg, rest, hvis, hts⟩
  · have htot : 0 < getCollapsedDuration d rs := getCollapsedDuration_pos d rs hinv seg hseg
    have htot' : ¬(getCollapsedDuration d rs ≤ 0) := not_le.mpr htot
    have htne : getCollapsedDuration d rs ≠ 0 := ne_of_gt htot
    set total := getCollapsedDuration d rs with htotal
    set p := percentWalk t 0 (getVisibleRanges d rs) with hp
    have hp0 : 0 ≤ p := percentWalk_nonneg t _ hinv.width
    have hpt : p ≤ total := by
      rw [hp, htotal, getCollapsedDuration_eq]
      exact percentWalk_le_sum t _ hinv.width
    have hdiv0 : 0 ≤ p / total * 100 := by positivity
    have hdiv1 : p / total * 100 ≤ 100 := by
      have h1 : p / total ≤ 1 := (div_le_one htot).mpr hpt
      linarith
    have hclamp : clamp (p / total * 100) 0 100 = p / total * 100 := by
      unfold clamp
      rw [max_eq_left hdiv0, min_eq_left hdiv1]
    have hpct : getCollapsedPercentForTime d rs t = p / total * 100 := by
      unfold getCollapsedPercentForTime
      rw [if_neg htot']
      exact hclamp
    have hback : clamp (p / total * 100) 0 100 / 100 * total = p := by
      rw [hclamp]
      field_simp
      ring
    unfold getTimeForCollapsedPercent
    rw [hpct, if_neg htot', hback]
    show timeWalk d (max 0 (min total p)) 0 (getVisibleRanges d rs) = t
    rw [min_eq_right hpt, max_eq_right hp0]
    exact walk_roundTrip d _ hinv.pair hinv.width t seg hseg hs1 hs2
  · have hseg : seg ∈ getVisibleRanges d rs := by rw [hvis]; simp
    have htot : 0 < getCollapsedDuration d rs := getCollapsedDuration_pos d rs hinv seg hseg
    have htot' : ¬(getCollapsedDuration d rs ≤ 0) := not_le.mpr htot
    have hp : percentWalk t 0 (getVisibleRanges d rs) = 0 := by
      refine percentWalk_zero t _ hinv.width ?_
      intro s hs
      rw [hvis] at hs
      rcases List.mem_cons.mp hs with h | h
      · subst h; exact le_of_eq hts
      · have hsw : seg.start < seg.«end» := hinv.width seg hseg
        have hpw := hinv.pair
        rw [hvis, List.pairwise_cons] at hpw
        have := hpw.1 s h
        rw [hts]
        linarith
    have hpct : getCollapsedPercentForTime d rs t = 0 := by
      unfold getCollapsedPercentForTime
      rw [if_neg htot', hp]
      unfold clamp
      norm_num
    rw [hpct]
    unfold getTimeForCollapsedPercent
    rw [if_neg htot']
    have hc0 : clamp 0 0 100 / 100 * getCollapsedDuration d rs = 0 := by
      unfold clamp
      norm_num
    rw [hc0]
    show timeWalk d (max 0 (min (getCollapsedDuration d rs) 0)) 0 (getVisibleRanges d rs) = t
    rw [min_eq_right htot.le, max_eq_right (le_refl 0)]
    rw [hvis]
    have hsw : seg.start < seg.«end» := hinv.width seg hseg
    have hcond : (0 : Time) ≤ 0 + (seg.«end» - seg.start) := by linarith
    simp only [timeWalk, if_pos hcond]
    rw [hts]
    have : max 0 ((0 : Time) - 0) = 0 := by norm_num
    rw [this]
    ring

/-! ## Tiling of the visible segments in the all-expanded case -/

theorem normalize_allExpanded (rs : List DeletedRange)
    (h : ∀ r ∈ rs, r.expanded = true) :
    ∀ o ∈ normalizeDeletedRanges rs, o.expanded = true := by
  intro o ho
  rw [normalize_expanded_char rs o ho]
  intro x hx _ _ _
  exact h x hx

/-- A visible-segment list in which every kept segment is bounded on the
right by the timeline end or by a deleted segment present in the list
admits no neighbor merges. -/
theorem chain'_noMerge (d : Time) : ∀ L : List VisSeg,
    List.Pairwise (fun a b => a.«end» ≤ b.start) L →
    (∀ s ∈ L, s.start < s.«end») →
    (∀ s ∈ L, s.«end» ≤ d) →
    List.Pairwise (fun a b => a.deleted = true → b.deleted = true →
      a.«end» + eps < b.start) L →
    (∀ s ∈ L, s.deleted = false →
      s.«end» = d ∨ ∃ xs ∈ L, xs.deleted = true ∧ s.«end» = xs.start) →
    List.Chain' (fun a b => ¬(b.deleted = a.deleted ∧ b.start ≤ a.«end» + eps)) L := by
  intro L
  induction L with
  | nil => intro _ _ _ _ _; simp
  | cons a L' ih =>
    intro hsort hw hend hDD hkept
    cases L' with
    | nil => simp
    | cons b rest =>
      rw [List.pairwise_cons] at hsort hDD
      have hab : a.«end» ≤ b.start := hsort.1 b (by simp)
      have haw : a.start < a.«end» := hw a (by simp)
      have hbw : b.start < b.«end» := hw b (by simp)
      rw [List.chain'_cons]
      constructor
      · rintro ⟨hflag, hclose⟩
        cases hfa : a.deleted with
        | true =>
          have := hDD.1 b (by simp) hfa (by rw [hflag, hfa])
          linarith
        | false =>
          rcases hkept a (by simp) hfa with hd' | ⟨xs, hxs, hxsd, hxse⟩
          · have hbd : b.«end» ≤ d := hend b (by simp)
            linarith [hd' ▸ hab]
          · rcases List.mem_cons.mp hxs with h | h
            · subst h; rw [hfa] at hxsd; exact absurd hxsd (by simp)
            · rcases List.mem_cons.mp h with h' | h'
              · subst h'
                rw [hflag, hfa] at hxsd
                exact absurd hxsd (by simp)
              · have hpw2 := hsort.2
                rw [List.pairwise_cons] at hpw2
                have : b.«end» ≤ xs.start := hpw2.1 xs h'
                rw [← hxse] at this
                linarith
      · refine ih hsort.2 (fun s hs => hw s (by simp [hs]))
          (fun s hs => hend s (by simp [hs])) hDD.2 ?_
        intro s hs hsf
        rcases hkept s (by simp [hs]) hsf with h | ⟨xs, hxs, hxsd, hxse⟩
        · exact Or.inl h
        · rcases List.mem_cons.mp hxs with h' | h'
          · -- xs = a is impossible: s would end before a ends
            subst h'
            have : xs.«end» ≤ s.start := by
              rcases List.mem_cons.mp hs with h'' | h''
              · subst h''; exact hab
              · have hpw2 := hsort.1 s (by simp [h''])
                exact hpw2
            have hsw : s.start < s.«end» := hw s (by simp [hs])
            have hxw : xs.start < xs.«end» := hw xs (by simp)
            rw [hxse] at hsw
            linarith
          · exact Or.inr ⟨xs, h', hxsd, hxse⟩

/-- In the all-expanded case the visible segments are exactly the sorted
kept-plus-deleted list, with no merges. -/
theorem getVisibleRanges_allExpanded_eq (d : Time) (rs : List DeletedRange)
    (hd : 0 ≤ d) (hb : ∀ r ∈ rs, 0 ≤ r.start ∧ r.«end» ≤ d)
    (hexp : ∀ r ∈ rs, r.expanded = true) :
    getVisibleRanges d rs = List.insertionSort rleS (visCombined d rs) := by
  obtain ⟨hw, hbd, hdisj⟩ := visCombined_facts d rs hd hb
  have hperm := List.perm_insertionSort rleS (visCombined d rs)
  have hsorted : List.Pairwise rleS (List.insertionSort rleS (visCombined d rs)) :=
    List.sorted_insertionSort rleS _
  have hdisj' : List.Pairwise segDisj (List.insertionSort rleS (visCombined d rs)) :=
    (hperm.pairwise_iff (fun h => Or.symm h)).mpr hdisj
  have hw' : ∀ s ∈ List.insertionSort rleS (visCombined d rs), s.start < s.«end» := by
    intro s hs
    exact hw s (hperm.mem_iff.mp hs)
  have hbd' : ∀ s ∈ List.insertionSort rleS (visCombined d rs), s.«end» ≤ d := by
    intro s hs
    exact (hbd s (hperm.mem_iff.mp hs)).2
  have hP : List.Pairwise (fun a b => a.«end» ≤ b.start)
      (List.insertionSort rleS (visCombined d rs)) := by
    refine List.Pairwise.imp_of_mem ?_ (hsorted.and hdisj')
    intro a b ha hbm ⟨hle, hor⟩
    rcases hor with h | h
    · exact h
    · have hbw : b.start < b.«end» := hw' b hbm
      unfold rleS at hle
      linarith
  -- pairwise eps-separation between deleted segments
  have hwf := normalizeDeletedRanges_wellFormed rs
  have hDDc : List.Pairwise (fun a b => a.deleted = true → b.deleted = true →
      a.«end» + eps < b.start ∨ b.«end» + eps < a.start) (visCombined d rs) := by
    unfold visCombined
    rw [List.pairwise_append]
    refine ⟨?_, ?_, ?_⟩
    · rw [List.pairwise_map]
      refine List.Pairwise.imp ?_ (keptFromSorted_master d (normalizeDeletedRanges rs) 0
        hwf.1 hwf.2 (fun x hx => (normalize_bounds rs 0 d hb x hx).2)
        (fun x hx => (normalize_bounds rs 0 d hb x hx).1)).pair
      intro a b _
      intro hfalse _
      exact absurd hfalse (by simp)
    · rw [List.pairwise_map]
      refine List.Pairwise.imp ?_ (hwf.1.filter _)
      intro a b h _ _
      exact Or.inl h
    · intro a ha b hb'
      obtain ⟨k, hk, rfl⟩ := List.mem_map.mp ha
      intro hfalse _
      exact absurd hfalse (by simp)
  have hDD : List.Pairwise (fun a b => a.deleted = true → b.deleted = true →
      a.«end» + eps < b.start) (List.insertionSort rleS (visCombined d rs)) := by
    have hsym : ∀ {a b : VisSeg},
        (a.deleted = true → b.deleted = true → a.«end» + eps < b.start ∨ b.«end» + eps < a.start) →
        (b.deleted = true → a.deleted = true → b.«end» + eps < a.start ∨ a.«end» + eps < b.start) := by
      intro a b h hb' ha'
      exact (h ha' hb').symm
    have := (hperm.pairwise_iff hsym).mpr hDDc
    refine List.Pairwise.imp_of_mem ?_ ((hsorted.and this))
    intro a b ha hbm ⟨hle, hor⟩ hda hdb
    rcases hor hda hdb with h | h
    · exact h
    · have hbw : b.start < b.«end» := hw' b hbm
      unfold rleS at hle
      linarith [eps_pos]
  -- every kept segment's end is the duration or the start of a deleted segment in the list
  have hkept : ∀ s ∈ List.insertionSort rleS (visCombined d rs), s.deleted = false →
      s.«end» = d ∨ ∃ xs ∈ List.insertionSort rleS (visCombined d rs),
        xs.deleted = true ∧ s.«end» = xs.start := by
    intro s hs hsf
    have hsc : s ∈ visCombined d rs := hperm.mem_iff.mp hs
    unfold visCombined at hsc
    rcases List.mem_append.mp hsc with h | h
    · obtain ⟨k, hk, rfl⟩ := List.mem_map.mp h
      have hki := keptFromSorted_master d (normalizeDeletedRanges rs) 0
        hwf.1 hwf.2 (fun x hx => (normalize_bounds rs 0 d hb x hx).2)
        (fun x hx => (normalize_bounds rs 0 d hb x hx).1)
      rcases hki.endOrigin k hk with h' | ⟨x, hx, h'⟩
      · exact Or.inl h'
      · refine Or.inr ⟨VisSeg.mk x.start x.«end» true, ?_, rfl, h'⟩
        rw [hperm.mem_iff]
        unfold visCombined
        refine List.mem_append.mpr (Or.inr ?_)
        refine List.mem_map.mpr ⟨x, ?_, rfl⟩
        refine List.mem_filter.mpr ⟨hx, ?_⟩
        exact normalize_allExpanded rs hexp x hx
    · obtain ⟨r, hr, rfl⟩ := List.mem_map.mp h
      simp at hsf
  have hchain := chain'_noMerge d (List.insertionSort rleS (visCombined d rs))
    hP hw' hbd' hDD hkept
  rw [getVisibleRanges_eq]
  rcases hcases : List.insertionSort rleS (visCombined d rs) with _ | ⟨s, rest⟩
  · rfl
  · rw [hcases] at hchain
    exact mergeSegs_eq_of_noMerge rest s hchain

theorem visible_sum_allExpanded (d : Time) (rs : List DeletedRange)
    (hd : 0 ≤ d) (hb : ∀ r ∈ rs, 0 ≤ r.start ∧ r.«end» ≤ d)
    (hexp : ∀ r ∈ rs, r.expanded = true) :
    ((getVisibleRanges d rs).map segWidth).sum = d := by
  rw [getVisibleRanges_allExpanded_eq d rs hd hb hexp]
  have hperm := List.perm_insertionSort rleS (visCombined d rs)
  rw [(hperm.map segWidth).sum_eq]
  unfold visCombined
  rw [List.map_append, List.sum_append, List.map_map, List.map_map]
  have hwf := normalizeDeletedRanges_wellFormed rs
  have hnb := normalize_bounds rs 0 d hb
  have hfe : (normalizeDeletedRanges rs).filter (fun r => r.expanded)
      = normalizeDeletedRanges rs :=
    List.filter_eq_self.mpr (fun x hx => normalize_allExpanded rs hexp x hx)
  rw [hfe]
  have e1 : (segWidth ∘ fun k : TimeRange => VisSeg.mk k.start k.«end» false)
      = fun k : TimeRange => k.«end» - k.start := rfl
  have e2 : (segWidth ∘ fun r : DeletedRange => VisSeg.mk r.start r.«end» true)
      = fun r : DeletedRange => r.«end» - r.start := rfl
  rw [e1, e2]
  have hsum := keptFromSorted_sum d (normalizeDeletedRanges rs) 0 hwf.1 hwf.2
    (fun x hx => (hnb x hx).2) (fun x hx => (hnb x hx).1) hd
  rw [hsum]
  ring

theorem visible_coverage_allExpanded (d : Time) (rs : List DeletedRange)
    (hd0 : 0 < d) (hb : ∀ r ∈ rs, 0 ≤ r.start ∧ r.«end» ≤ d)
    (hexp : ∀ r ∈ rs, r.expanded = true) :
    ∀ t, 0 ≤ t → t ≤ d →
      ∃ seg ∈ getVisibleRanges d rs, seg.start ≤ t ∧ t ≤ seg.«end» := by
  intro t ht0 htd
  have hwf := normalizeDeletedRanges_wellFormed rs
  have hnb := normalize_bounds rs 0 d hb
  have hvise := getVisibleRanges_allExpanded_eq d rs hd0.le hb hexp
  have hperm := List.perm_insertionSort rleS (visCombined d rs)
  have hcov := keptFromSorted_coverage d (normalizeDeletedRanges rs) 0 t hwf.1 hwf.2
    (fun x hx => (hnb x hx).2) (fun x hx => (hnb x hx).1) hd0 ht0 htd
  rcases hcov with ⟨k, hk, hcov⟩ | ⟨x, hx, hcov⟩
  · refine ⟨VisSeg.mk k.start k.«end» false, ?_, hcov⟩
    rw [hvise, hperm.mem_iff]
    unfold visCombined
    exact List.mem_append.mpr (Or.inl (List.mem_map.mpr ⟨k, hk, rfl⟩))
  · refine ⟨VisSeg.mk x.start x.«end» true, ?_, hcov⟩
    rw [hvise, hperm.mem_iff]
    unfold visCombined
    refine List.mem_append.mpr (Or.inr (List.mem_map.mpr ⟨x, ?_, rfl⟩))
    exact List.mem_filter.mpr ⟨hx, normalize_allExpanded rs hexp x hx⟩

theorem visible_order (d : Time) (rs : List DeletedRange)
    (hd : 0 ≤ d) (hb : ∀ r ∈ rs, 0 ≤ r.start ∧ r.«end» ≤ d) :
    List.Pairwise (fun a b => a.start < b.start ∧ a.«end» ≤ b.start)
      (getVisibleRanges d rs) := by
  have hinv := getVisibleRanges_inv d rs hd hb
  refine List.Pairwise.imp_of_mem ?_ hinv.pair
  intro a b ha _ hab
  have := hinv.width a ha
  exact ⟨by linarith, hab⟩

/-! ## Claim C1 -/

/-- C1 (amended): for every duration `d ≥ 0` and every deleted-range set
respecting the data-model bounds, mapping a time `t` to a collapsed percent
and back returns `t` exactly (the model is exact rational arithmetic)
whenever `t` lies in a visible segment — except at the left endpoint of a
segment that follows a collapsed gap: the round trip holds for all `t` with
`seg.start < t ≤ seg.end`, and for `t` equal to the very first visible
segment's start. -/
theorem claim_C1 (d : Time) (rs : List DeletedRange) (t : Time)
    (hd : 0 ≤ d) (hb : ∀ r ∈ rs, 0 ≤ r.start ∧ r.«end» ≤ d)
    (hcase : (∃ seg ∈ getVisibleRanges d rs, seg.start < t ∧ t ≤ seg.«end») ∨
      (∃ seg rest, getVisibleRanges d rs = seg :: rest ∧ t = seg.start)) :
    getTimeForCollapsedPercent d rs (getCollapsedPercentForTime d rs t) = t :=
  roundTrip_general d rs t hd hb hcase

/-- Witness for C1's amended theorem at duration 100, deleted `[10,20]`
collapsed, `t = 50` strictly inside the visible segment `[20,100]`. -/
theorem claim_C1_witness :
    getTimeForCollapsedPercent 100 [⟨10, 20, false⟩]
      (getCollapsedPercentForTime 100 [⟨10, 20, false⟩] 50) = 50 := by
  apply claim_C1
  · norm_num
  · intro r hr
    simp only [List.mem_singleton] at hr
    subst hr
    norm_num
  · left
    refine ⟨VisSeg.mk 20 100 false, ?_, by norm_num, by norm_num⟩
    have hv : getVisibleRanges 100 [⟨10, 20, false⟩] = [⟨0, 10, false⟩, ⟨20, 100, false⟩] := by
      norm_num [getVisibleRanges, normalizeDeletedRanges, keptFromSorted, mergeSegs,
        mergeSorted, List.insertionSort, List.orderedInsert, rleD, rleS, eps, List.filter]
    rw [hv]
    simp

/-- Counterexample to C1 as stated: with duration 100 and deleted `[10,20]`
collapsed (a normalized set), the time `t = 20` lies inside the visible
segment `[20,100]`, yet the round trip returns `10`, an error of 10 seconds
— far beyond floating-point precision (the model computes exactly). -/
theorem claim_C1_counterexample :
    normalizeDeletedRanges [⟨10, 20, false⟩] = [⟨10, 20, false⟩]
    ∧ getVisibleRanges 100 [⟨10, 20, false⟩] = [⟨0, 10, false⟩, ⟨20, 100, false⟩]
    ∧ ((VisSeg.mk 20 100 false).start ≤ 20 ∧ (20 : Time) ≤ (VisSeg.mk 20 100 false).«end»)
    ∧ getTimeForCollapsedPercent 100 [⟨10, 20, false⟩]
        (getCollapsedPercentForTime 100 [⟨10, 20, false⟩] 20) = 10
    ∧ (10 : Time) ≠ 20 := by
  refine ⟨?_, ?_, ⟨by norm_num, by norm_num⟩, ?_, by norm_num⟩
  · norm_num [normalizeDeletedRanges, mergeSorted, List.insertionSort, List.orderedInsert,
      rleD, eps, List.filter]
  · norm_num [getVisibleRanges, normalizeDeletedRanges, keptFromSorted, mergeSegs,
      mergeSorted, List.insertionSort, List.orderedInsert, rleD, rleS, eps, List.filter]
  · norm_num [getTimeForCollapsedPercent, getCollapsedPercentForTime, getTimeForCollapsedTime,
      getCollapsedDuration, getVisibleRanges, normalizeDeletedRanges, keptFromSorted,
      mergeSegs, mergeSorted, segWidth, percentWalk, timeWalk, clamp,
      List.insertionSort, List.orderedInsert, rleD, rleS, eps, List.filter]

/-! ## Claim C6 -/

/-- C6 (amended): `getVisibleRanges()` is always ordered by start and
pairwise non-overlapping; it tiles `[0, duration]` exactly — widths summing
to `duration` and every instant covered — when every deleted range is
expanded.  (Non-expanded deleted ranges are excluded from the partition, so
they leave gaps and reduce the width sum by their own width.) -/
theorem claim_C6 (d : Time) (rs : List DeletedRange)
    (hd : 0 ≤ d) (hb : ∀ r ∈ rs, 0 ≤ r.start ∧ r.«end» ≤ d) :
    List.Pairwise (fun a b => a.start < b.start ∧ a.«end» ≤ b.start) (getVisibleRanges d rs)
    ∧ ((∀ r ∈ rs, r.expanded = true) →
        ((getVisibleRanges d rs).map segWidth).sum = d
        ∧ ∀ t, 0 ≤ t → t ≤ d → 0 < d →
            ∃ seg ∈ getVisibleRanges d rs, seg.start ≤ t ∧ t ≤ seg.«end») := by
  refine ⟨visible_order d rs hd hb, fun hexp =>
    ⟨visible_sum_allExpanded d rs hd hb hexp, ?_⟩⟩
  intro t ht0 htd hd0
  exact visible_coverage_allExpanded d rs hd0 hb hexp t ht0 htd

/-- Witness for C6's amended theorem: duration 100 with deleted `[10,20]`
expanded tiles exactly, the widths summing to 100. -/
theorem claim_C6_witness :
    ((getVisibleRanges 100 [⟨10, 20, true⟩]).map segWidth).sum = 100 := by
  have hb : ∀ r ∈ [(⟨10, 20, true⟩ : DeletedRange)], 0 ≤ r.start ∧ r.«end» ≤ 100 := by
    intro r hr
    simp only [List.mem_singleton] at hr
    subst hr
    norm_num
  have hexp : ∀ r ∈ [(⟨10, 20, true⟩ : DeletedRange)], r.expanded = true := by
    intro r hr
    simp only [List.mem_singleton] at hr
    subst hr
    rfl
  exact ((claim_C6 100 [⟨10, 20, true⟩] (by norm_num) hb).2 hexp).1

/-- Counterexample to C6 as stated: duration 100 with deleted `[10,20]`
collapsed leaves a gap — the widths sum to 90, not 100, and no visible
segment covers `t = 15`. -/
theorem claim_C6_counterexample :
    getVisibleRanges 100 [⟨10, 20, false⟩] = [⟨0, 10, false⟩, ⟨20, 100, false⟩]
    ∧ ((getVisibleRanges 100 [⟨10, 20, false⟩]).map segWidth).sum = 90
    ∧ ((90 : Time) ≠ 100)
    ∧ ¬ ∃ seg ∈ getVisibleRanges 100 [⟨10, 20, false⟩],
        seg.start ≤ 15 ∧ (15 : Time) ≤ seg.«end» := by
  have hv : getVisibleRanges 100 [⟨10, 20, false⟩] = [⟨0, 10, false⟩, ⟨20, 100, false⟩] := by
    norm_num [getVisibleRanges, normalizeDeletedRanges, keptFromSorted, mergeSegs,
      mergeSorted, List.insertionSort, List.orderedInsert, rleD, rleS, eps, List.filter]
  refine ⟨hv, ?_, by norm_num, ?_⟩
  · rw [hv]
    norm_num [segWidth]
  · rw [hv]
    rintro ⟨seg, hseg, h1, h2⟩
    simp only [List.mem_cons, List.mem_singleton] at hseg
    rcases hseg with rfl | rfl | h
    · norm_num at h1 h2
    · norm_num at h1 h2
    · simp at h

/-! ## Claims C3 and C4 -/

/-- C3: after every normalization the stored deleted ranges are sorted
ascending by start and pairwise non-overlapping; two positive-width ranges
that touch or overlap are merged into a single range ending at the maximum
of the two ends; and deleting `[5,10]` then the adjacent `[10,15]` yields
exactly the single deleted range `[5,15]`. -/
theorem claim_C3 :
    (∀ rs : List DeletedRange,
      List.Pairwise (fun a b => a.start < b.start ∧ a.«end» ≤ b.start)
        (normalizeDeletedRanges rs))
    ∧ (∀ r1 r2 : DeletedRange, r1.start < r1.«end» → r2.start < r2.«end» →
        r1.start ≤ r2.start → r2.start ≤ r1.«end» →
        normalizeDeletedRanges [r1, r2] =
          [⟨r1.start, max r1.«end» r2.«end», r1.expanded && r2.expanded⟩])
    ∧ addDeletedRange (addDeletedRange [] ⟨5, 10, false⟩) ⟨10, 15, false⟩
        = [⟨5, 15, false⟩] := by
  refine ⟨?_, ?_, ?_⟩
  · intro rs
    exact wellFormed_sorted_disjoint (normalizeDeletedRanges_wellFormed rs)
  · intro r1 r2 h1 h2 h12 htouch
    unfold normalizeDeletedRanges
    rw [if_neg (by simp)]
    have hfilter : List.filter (fun r => decide (r.start < r.«end»)) [r1, r2] = [r1, r2] := by
      simp [List.filter, h1, h2]
    rw [hfilter]
    have hsort : List.insertionSort rleD [r1, r2] = [r1, r2] := by
      simp [List.insertionSort, List.orderedInsert, rleD, h12]
    rw [hsort]
    show mergeSorted r1 [r2] = _
    rw [mergeSorted, if_pos (by linarith [eps_pos])]
    rfl
  · norm_num [addDeletedRange, normalizeDeletedRanges, mergeSorted, List.insertionSort,
      List.orderedInsert, rleD, eps, List.filter]

/-- Witness for C3 at the overlapping pair `[5,10]` (expanded) and `[8,15]`
(collapsed). -/
theorem claim_C3_witness :
    normalizeDeletedRanges [⟨5, 10, true⟩, ⟨8, 15, false⟩]
      = [⟨5, max 10 15, true && false⟩] :=
  claim_C3.2.1 ⟨5, 10, true⟩ ⟨8, 15, false⟩ (by norm_num) (by norm_num)
    (by norm_num) (by norm_num)

/-- C4: a normalized range is expanded iff every positive-width input range
merged into it (exactly those whose start lies in `[o.start, o.end)`) was
expanded; in particular deleting `[5,10]` expanded then `[10,15]` collapsed
yields the single merged range `[5,15]` with `expanded = false`. -/
theorem claim_C4 :
    (∀ rs : List DeletedRange, ∀ o ∈ normalizeDeletedRanges rs,
      (o.expanded = true ↔
        ∀ x ∈ rs, x.start < x.«end» → o.start ≤ x.start → x.start < o.«end» →
          x.expanded = true))
    ∧ addDeletedRange (addDeletedRange [] ⟨5, 10, true⟩) ⟨10, 15, false⟩
        = [⟨5, 15, false⟩] := by
  refine ⟨normalize_expanded_char, ?_⟩
  norm_num [addDeletedRange, normalizeDeletedRanges, mergeSorted, List.insertionSort,
    List.orderedInsert, rleD, eps, List.filter]

/-- Witness for C4: merging two expanded ranges keeps the result expanded,
read off through the characterization at the concrete merged range. -/
theorem claim_C4_witness :
    (⟨5, 15, true⟩ : DeletedRange) ∈ normalizeDeletedRanges [⟨5, 10, true⟩, ⟨10, 15, true⟩]
    ∧ (⟨5, 15, true⟩ : DeletedRange).expanded = true := by
  have hcomp : normalizeDeletedRanges [⟨5, 10, true⟩, ⟨10, 15, true⟩] = [⟨5, 15, true⟩] := by
    norm_num [normalizeDeletedRanges, mergeSorted, List.insertionSort,
      List.orderedInsert, rleD, eps, List.filter]
  have hmem : (⟨5, 15, true⟩ : DeletedRange)
      ∈ normalizeDeletedRanges [⟨5, 10, true⟩, ⟨10, 15, true⟩] := by
    rw [hcomp]; simp
  refine ⟨hmem, ?_⟩
  rw [claim_C4.1 [⟨5, 10, true⟩, ⟨10, 15, true⟩] ⟨5, 15, true⟩ hmem]
  intro x hx _ _ _
  rcases List.mem_cons.mp hx with h | h
  · subst h; rfl
  · rcases List.mem_cons.mp h with h' | h'
    · subst h'; rfl
    · simp at h'

/-! ## Claim C5 -/

/-- Pointwise effect of `restoreOne` away from the window endpoints: the
pieces cover exactly the instants of `r` outside the open window `(a, b)`. -/
theorem restoreOne_coverage (a b : Time) (r : DeletedRange) (hab : a ≤ b)
    (hw : r.start < r.«end») (t : Time) (hta : t ≠ a) (htb : t ≠ b) :
    (∃ p ∈ restoreOne a b r, p.start ≤ t ∧ t ≤ p.«end») ↔
      ((r.start ≤ t ∧ t ≤ r.«end») ∧ ¬(a < t ∧ t < b)) := by
  simp only [restoreOne]
  split_ifs with h0 h1 h2 h3 h4
  · -- no positive overlap: the range is kept whole
    simp only [List.mem_singleton, exists_eq_left]
    constructor
    · intro cov
      refine ⟨cov, ?_⟩
      rintro ⟨hat, htb'⟩
      have hmx : max r.start a ≤ t := max_le cov.1 hat.le
      have hmn : t ≤ min r.«end» b := le_min cov.2 htb'.le
      have hmax_t : max r.start a = t := le_antisymm hmx (le_trans hmn h0)
      have hmin_t : min r.«end» b = t := le_antisymm (le_trans h0 hmx) hmn
      rcases max_cases r.start a with ⟨hm, _⟩ | ⟨hm, _⟩
      · rcases min_cases r.«end» b with ⟨hn, _⟩ | ⟨hn, _⟩
        · rw [hm] at hmax_t; rw [hn] at hmin_t
          linarith
        · rw [hn] at hmin_t
          exact htb hmin_t.symm
      · rw [hm] at hmax_t
        exact absurd hmax_t (by linarith)
    · intro ⟨cov, _⟩
      exact cov
  · -- full containment: dropped
    constructor
    · rintro ⟨p, hp, _⟩
      simp at hp
    · rintro ⟨cov, hnmid⟩
      exfalso
      refine hnmid ⟨?_, ?_⟩
      · exact lt_of_le_of_ne (le_trans h1.1 cov.1) (Ne.symm hta)
      · exact lt_of_le_of_ne (le_trans cov.2 h1.2) htb
  · -- window strictly inside: split into two collapsed pieces
    constructor
    · rintro ⟨p, hp, hcov⟩
      rcases List.mem_cons.mp hp with hpe | hp'
      · subst hpe
        simp only at hcov
        exact ⟨⟨hcov.1, by linarith [hcov.2, h2.2]⟩, fun hmid => by linarith [hcov.2, hmid.1]⟩
      · rcases List.mem_cons.mp hp' with hpe | hp''
        · subst hpe
          simp only at hcov
          exact ⟨⟨by linarith [hcov.1, h2.1], hcov.2⟩,
            fun hmid => by linarith [hcov.1, hmid.2]⟩
        · simp at hp''
    · rintro ⟨cov, hnmid⟩
      rcases not_and_or.mp hnmid with h | h
      · push_neg at h
        exact ⟨⟨r.start, a, false⟩, by simp, cov.1, h⟩
      · push_neg at h
        exact ⟨⟨b, r.«end», false⟩, by simp, h, cov.2⟩
  · -- overlap on the right edge: trim the end
    have hamin : a < min r.«end» b := by
      push_neg at h0
      calc a ≤ max r.start a := le_max_right _ _
        _ < min r.«end» b := h0
    constructor
    · rintro ⟨p, hp, hcov⟩
      rcases List.mem_cons.mp hp with hpe | hp'
      · subst hpe
        simp only at hcov
        refine ⟨⟨hcov.1, ?_⟩, fun hmid => by linarith [hcov.2, hmid.1]⟩
        have : a < r.«end» := lt_of_lt_of_le hamin (min_le_left _ _)
        linarith [hcov.2]
      · simp at hp'
    · rintro ⟨cov, hnmid⟩
      rcases not_and_or.mp hnmid with h | h
      · push_neg at h
        exact ⟨⟨r.start, a, false⟩, by simp, cov.1, h⟩
      · push_neg at h
        have hbt : b < t := lt_of_le_of_ne h (Ne.symm htb)
        exact absurd cov.2 (by linarith [h3.2])
  · -- overlap on the left edge: trim the start
    have hmaxb : max r.start a < b := by
      push_neg at h0
      calc max r.start a < min r.«end» b := h0
        _ ≤ b := min_le_right _ _
    constructor
    · rintro ⟨p, hp, hcov⟩
      rcases List.mem_cons.mp hp with hpe | hp'
      · subst hpe
        simp only at hcov
        refine ⟨⟨?_, hcov.2⟩, fun hmid => by linarith [hcov.1, hmid.2]⟩
        have : r.start < b := lt_of_le_of_lt (le_max_left _ _) hmaxb
        linarith [hcov.1]
      · simp at hp'
    · rintro ⟨cov, hnmid⟩
      rcases not_and_or.mp hnmid with h | h
      · push_neg at h
        have hta' : t < a := lt_of_le_of_ne h hta
        exact absurd cov.1 (by linarith [h4.1])
      · push_neg at h
        exact ⟨⟨b, r.«end», false⟩, by simp, h, cov.2⟩
  · -- dead branch: the previous four cases are exhaustive
    exfalso
    by_cases hra : r.start < a
    · rcases not_and_or.mp h2 with h | h
      · exact h hra
      · push_neg at h
        exact h3 ⟨hra, h⟩
    · push_neg at hra
      rcases not_and_or.mp h1 with h | h
      · exact h hra
      · push_neg at h
        exact h4 ⟨hra, h⟩

/-- C5 (amended): `restoreDeletedInRange` removes exactly the overlapping
portions of every (positive-width) deleted range — away from the window's
endpoints, an instant stays covered iff it was covered and is not strictly
inside the window — and returns true iff some range positively overlaps the
window (`hasDeletedInRange`); a range strictly containing the window is
split into two pieces, but the pieces come back with `expanded = false`
(the original flag is not preserved). -/
theorem claim_C5 (rs : List DeletedRange) (a b : Time) (hab : a < b)
    (hw : ∀ r ∈ rs, r.start < r.«end») :
    (∀ t : Time, t ≠ a → t ≠ b →
      ((∃ p ∈ (restoreDeletedInRange rs a b).1, p.start ≤ t ∧ t ≤ p.«end») ↔
        ((∃ r ∈ rs, r.start ≤ t ∧ t ≤ r.«end») ∧ ¬(a < t ∧ t < b))))
    ∧ (restoreDeletedInRange rs a b).2 = hasDeletedInRange rs a b
    ∧ (∀ r : DeletedRange, r.start < a → b < r.«end» →
        restoreOne a b r = [⟨r.start, a, false⟩, ⟨b, r.«end», false⟩]) := by
  have hmin : min a b = a := min_eq_left hab.le
  have hmax : max a b = b := max_eq_right hab.le
  refine ⟨?_, ?_, ?_⟩
  · intro t hta htb
    simp only [restoreDeletedInRange, hmin, hmax]
    split_ifs with he hc
    · rw [List.isEmpty_iff] at he
      subst he
      simp
    · simp only [List.mem_flatten, List.mem_map]
      constructor
      · rintro ⟨p, ⟨L, ⟨r, hr, rfl⟩, hpL⟩, hcov⟩
        have := (restoreOne_coverage a b r hab.le (hw r hr) t hta htb).mp ⟨p, hpL, hcov⟩
        exact ⟨⟨r, hr, this.1⟩, this.2⟩
      · rintro ⟨⟨r, hr, cov⟩, hnmid⟩
        obtain ⟨p, hp, hcov⟩ :=
          (restoreOne_coverage a b r hab.le (hw r hr) t hta htb).mpr ⟨cov, hnmid⟩
        exact ⟨p, ⟨restoreOne a b r, ⟨r, hr, rfl⟩, hp⟩, hcov⟩
    · constructor
      · rintro ⟨r, hr, cov⟩
        refine ⟨⟨r, hr, cov⟩, ?_⟩
        rintro ⟨hat, htb'⟩
        rw [List.any_eq_true] at hc
        push_neg at hc
        have hne := hc r hr
        have h0 : ¬(max r.start a < min r.«end» b) := by simpa using hne
        have h0' : min r.«end» b ≤ max r.start a := not_lt.mp h0
        have hmx : max r.start a ≤ t := max_le cov.1 hat.le
        have hmn' : t ≤ min r.«end» b := le_min cov.2 htb'.le
        have hmax_t : max r.start a = t := le_antisymm hmx (le_trans hmn' h0')
        have hmin_t : min r.«end» b = t := le_antisymm (le_trans h0' hmx) hmn'
        rcases max_cases r.start a with ⟨hm, _⟩ | ⟨hm, _⟩
        · rcases min_cases r.«end» b with ⟨hn, _⟩ | ⟨hn, _⟩
          · rw [hm] at hmax_t
            rw [hn] at hmin_t
            have := hw r hr
            linarith
          · rw [hn] at hmin_t
            exact htb'.ne hmin_t.symm
        · rw [hm] at hmax_t
          exact absurd hmax_t (by linarith)
      · rintro ⟨⟨r, hr, cov⟩, _⟩
        exact ⟨r, hr, cov⟩
  · simp only [restoreDeletedInRange, hasDeletedInRange, hmin, hmax]
    split_ifs with he hc
    · rfl
    · rw [hc]
    · rw [eq_comm, ← Bool.not_eq_true]
      exact fun h => hc h
  · intro r hra hrb
    simp only [restoreOne]
    have h0 : ¬(min r.«end» b ≤ max r.start a) := by
      push_neg
      rcases max_cases r.start a with ⟨hm, _⟩ | ⟨hm, hm2⟩ <;>
        rcases min_cases r.«end» b with ⟨hn, _⟩ | ⟨hn, hn2⟩ <;>
          rw [hm, hn] <;> linarith
    rw [if_neg h0, if_neg (by rintro ⟨h, _⟩; linarith), if_pos ⟨hra, hrb⟩]

/-- Witness for C5 at `rs = [[0,10]]`, window `[4,6]`, instant `t = 5`. -/
theorem claim_C5_witness :
    ¬ (∃ p ∈ (restoreDeletedInRange [⟨0, 10, false⟩] 4 6).1,
        p.start ≤ 5 ∧ (5 : Time) ≤ p.«end»)
    ∧ (restoreDeletedInRange [⟨0, 10, false⟩] 4 6).2
        = hasDeletedInRange [⟨0, 10, false⟩] 4 6 := by
  have hw : ∀ r ∈ [(⟨0, 10, false⟩ : DeletedRange)], r.start < r.«end» := by
    intro r hr
    simp only [List.mem_singleton] at hr
    subst hr
    norm_num
  have h := claim_C5 [⟨0, 10, false⟩] 4 6 (by norm_num) hw
  constructor
  · intro hex
    have := (h.1 5 (by norm_num) (by norm_num)).mp hex
    exact this.2 (by norm_num)
  · exact h.2.1

/-- Counterexample to C5 as stated: restoring `[4,6]` out of the expanded
deleted range `[0,10]` splits it, but both halves come back collapsed
(`expanded = false`), not with the original `expanded = true` flag. -/
theorem claim_C5_counterexample :
    restoreDeletedInRange [⟨0, 10, true⟩] 4 6
        = ([⟨0, 4, false⟩, ⟨6, 10, false⟩], true)
    ∧ (∀ p ∈ (restoreDeletedInRange [⟨0, 10, true⟩] 4 6).1, p.expanded = false)
    ∧ (⟨0, 10, true⟩ : DeletedRange).expanded = true := by
  have hc : restoreDeletedInRange [⟨0, 10, true⟩] 4 6
      = ([⟨0, 4, false⟩, ⟨6, 10, false⟩], true) := by
    norm_num [restoreDeletedInRange, restoreOne]
  refine ⟨hc, ?_, rfl⟩
  rw [hc]
  intro p hp
  rcases List.mem_cons.mp hp with h | h
  · subst h; rfl
  · rcases List.mem_cons.mp h with h' | h'
    · subst h'; rfl
    · simp at h'

/-! ## Claim C7 -/

/-- Distinct-position case split for a pairwise-separated list. -/
theorem pairwise_either {α : Type} {R : α → α → Prop} :
    ∀ {l : List α}, l.Pairwise R → ∀ a ∈ l, ∀ b ∈ l, a = b ∨ R a b ∨ R b a := by
  intro l
  induction l with
  | nil => intro _ a ha; simp at ha
  | cons x t ih =>
    intro hp a ha b hb
    rw [List.pairwise_cons] at hp
    rcases List.mem_cons.mp ha with rfl | ha'
    · rcases List.mem_cons.mp hb with rfl | hb'
      · exact Or.inl rfl
      · exact Or.inr (Or.inl (hp.1 b hb'))
    · rcases List.mem_cons.mp hb with rfl | hb'
      · exact Or.inr (Or.inr (hp.1 a ha'))
      · exact ih hp.2 a ha' b hb'

/-- In a well-formed list, the end of a member range is never inside a
deleted range. -/
theorem end_not_deleted (rs : List DeletedRange) (hwf : WellFormed rs)
    (r : DeletedRange) (hr : r ∈ rs) :
    isTimeInDeletedRange rs r.«end» = false := by
  rw [isTimeInDeletedRange, List.any_eq_false]
  intro x hx
  rw [Bool.and_eq_true, decide_eq_true_eq, decide_eq_true_eq]
  rintro ⟨hx1, hx2⟩
  rcases pairwise_either hwf.1 r hr x hx with rfl | hsep | hsep
  · exact absurd hx2 (lt_irrefl _)
  · unfold rangesSep at hsep
    linarith [eps_pos]
  · unfold rangesSep at hsep
    have := hwf.2 r hr
    linarith [eps_pos]

/-- The first range whose trigger window contains the current time is the
range containing it, when the list is well-formed. -/
theorem skip_find (rs : List DeletedRange) (hpw : List.Pairwise rangesSep rs)
    (t : Time) (r : DeletedRange) (hr : r ∈ rs) (h1 : r.start ≤ t) (h2 : t < r.«end») :
    rs.find? (fun x => decide (x.start - 1/200 ≤ t) && decide (t < x.«end»)) = some r := by
  induction rs with
  | nil => simp at hr
  | cons c rest ih =>
    rw [List.pairwise_cons] at hpw
    rcases List.mem_cons.mp hr with rfl | hr'
    · refine List.find?_cons_of_pos _ ?_
      rw [Bool.and_eq_true, decide_eq_true_eq, decide_eq_true_eq]
      constructor
      · linarith
      · exact h2
    · have hsep := hpw.1 r hr'
      unfold rangesSep at hsep
      rw [List.find?_cons_of_neg, ih hpw.2 hr']
      rw [Bool.and_eq_true, decide_eq_true_eq, decide_eq_true_eq]
      rintro ⟨_, hlt⟩
      linarith [eps_pos]

/-- C7: on a playback tick with `playThroughDeleted` unset, a time inside
`[start, end)` of a well-formed deleted range commands a seek to the first
time `≥ end` that is not inside any deleted range (here `end` itself, since
normalized ranges are separated) plus the forward epsilon `0.001`, clamped
to the duration. -/
theorem claim_C7 (d : Time) (rs : List DeletedRange) (r : DeletedRange) (t : Time)
    (hwf : WellFormed rs) (hb : ∀ x ∈ rs, 0 ≤ x.start ∧ x.«end» ≤ d)
    (hr : r ∈ rs) (h1 : r.start ≤ t) (h2 : t < r.«end») :
    deletedSkipDecision d rs false t = SkipDecision.seek (min d (r.«end» + 1/1000))
    ∧ isTimeInDeletedRange rs r.«end» = false := by
  have hnotin := end_not_deleted rs hwf r hr
  have hd0 : 0 < d := by
    have hw := hwf.2 r hr
    have := hb r hr
    linarith
  have hnext : getNextNonDeletedTime d rs r.«end» = min d (r.«end» + 1/1000) := by
    unfold getNextNonDeletedTime
    rw [if_neg (not_le.mpr hd0)]
    have hre : max 0 (min d r.«end») = r.«end» := by
      rw [min_eq_right (hb r hr).2, max_eq_right]
      have hw := hwf.2 r hr
      have := (hb r hr).1
      linarith
    rw [hre]
    have hskip : skipLoop rs 100 r.«end» = r.«end» := by
      show skipLoop rs (Nat.succ 99) r.«end» = r.«end»
      rw [skipLoop, if_neg]
      rw [hnotin]
      simp
    show min d (skipLoop rs 100 r.«end» + 1/1000) = min d (r.«end» + 1/1000)
    rw [hskip]
  refine ⟨?_, hnotin⟩
  unfold deletedSkipDecision
  rw [skip_find rs hwf.1 t r hr h1 h2]
  simp only [Bool.false_eq_true, if_false]
  rw [hnext]

/-- Witness for C7: the spec scenario — duration 60, deleted `[20,25]`,
entry at `t = 20` commands a seek to `25.001`. -/
theorem claim_C7_witness :
    deletedSkipDecision 60 [⟨20, 25, false⟩] false 20
      = SkipDecision.seek (25 + 1/1000) := by
  have hwf : WellFormed [(⟨20, 25, false⟩ : DeletedRange)] := by
    constructor
    · simp
    · intro r hr
      simp only [List.mem_singleton] at hr
      subst hr
      norm_num
  have hb : ∀ x ∈ [(⟨20, 25, false⟩ : DeletedRange)], 0 ≤ x.start ∧ x.«end» ≤ 60 := by
    intro x hx
    simp only [List.mem_singleton] at hx
    subst hx
    norm_num
  have h := claim_C7 60 [⟨20, 25, false⟩] ⟨20, 25, false⟩ 20 hwf hb (by simp)
    (by norm_num) (by norm_num)
  rw [h.1]
  norm_num

/-! ## Claim C8 -/

/-- C8: while playing, once the current time reaches `selectionEnd − 0.005`,
the guard loops back to the selection start (or 0 with no start) when
looping, and otherwise pauses and seeks to
`max(selectionStart ?? 0, selectionEnd − 0.3)`. -/
theorem claim_C8 (selStart : Option Time) (selEnd : Time) (isLooping : Bool) (t : Time)
    (h : selEnd - 1/200 ≤ t) :
    checkSelectionBoundaryUltraPrecise true selStart (some selEnd) isLooping t
      = if isLooping then
          BoundaryAction.loopTo (match selStart with | some s => s | none => 0)
        else
          BoundaryAction.pauseAt
            (max (match selStart with | some s => s | none => 0) (selEnd - 3/10)) := by
  unfold checkSelectionBoundaryUltraPrecise
  simp only [Bool.not_true, Bool.false_eq_true, if_false]
  rw [if_pos h]

/-- Witness for C8: the spec scenario — selection `[10,20]`, position at
`20 − 0.005`: looping seeks to 10, otherwise pause and seek to
`max(10, 19.7) = 19.7`. -/
theorem claim_C8_witness :
    checkSelectionBoundaryUltraPrecise true (some 10) (some 20) true (19995/1000)
      = BoundaryAction.loopTo 10
    ∧ checkSelectionBoundaryUltraPrecise true (some 10) (some 20) false (19995/1000)
      = BoundaryAction.pauseAt (197/10) := by
  constructor
  · rw [claim_C8 (some 10) 20 true (19995/1000) (by norm_num)]
    rfl
  · rw [claim_C8 (some 10) 20 false (19995/1000) (by norm_num)]
    show BoundaryAction.pauseAt ((10 : Time) ⊔ (20 - 3/10)) = _
    have hmax : ((10 : Time) ⊔ (20 - 3/10)) = 197/10 := by
      rw [max_eq_right (by norm_num : (10 : Time) ≤ 20 - 3/10)]
      norm_num
    rw [hmax]

/-! ## Claim C10 -/

/-- C10: `setSelection` with a `null` at either endpoint clears the whole
selection and emits the `null` selection event; the stored selection never
has exactly one `null` endpoint. -/
theorem claim_C10 :
    (∀ startSec endSec : Option Time, (startSec = none ∨ endSec = none) →
      setSelection startSec endSec
        = (⟨none, none⟩, SelectionEvent.cleared))
    ∧ (∀ startSec endSec : Option Time,
        ((setSelection startSec endSec).1.selectionStartSec = none
          ↔ (setSelection startSec endSec).1.selectionEndSec = none)) := by
  constructor
  · rintro s e (rfl | rfl)
    · cases e <;> rfl
    · cases s <;> rfl
  · intro s e
    cases s <;> cases e <;> simp [setSelection]

/-- Witness for C10 at `setSelection(null, 5)`. -/
theorem claim_C10_witness :
    setSelection none (some 5) = (⟨none, none⟩, SelectionEvent.cleared) :=
  claim_C10.1 none (some 5) (Or.inl rfl)

/-! ## Claim C2 -/

/-- C2: the operation descriptor built at export time lists every deleted
range as a `{startSec, endSec}` pair — the timeline sync drops the
`expanded` flag, so the descriptor is unchanged by any re-flagging — and
the worker reads exactly that list. -/
theorem claim_C2 (selS selE : Option Time) (rs : List DeletedRange) (hne : rs ≠ []) :
    (∀ r ∈ rs, ExportRange.mk r.start r.«end»
        ∈ workerDeletedRanges (getCurrentOperations selS selE (syncDeletedRangesToState rs)))
    ∧ (workerDeletedRanges (getCurrentOperations selS selE
        (syncDeletedRangesToState rs))).length = rs.length
    ∧ workerDeletedRanges (getCurrentOperations selS selE (syncDeletedRangesToState rs)) ≠ []
    ∧ ∀ flag : Bool,
        getCurrentOperations selS selE
            (syncDeletedRangesToState (rs.map fun r => ⟨r.start, r.«end», flag⟩))
          = getCurrentOperations selS selE (syncDeletedRangesToState rs) := by
  refine ⟨?_, ?_, ?_, ?_⟩
  · intro r hr
    exact List.mem_map.mpr ⟨r, hr, rfl⟩
  · simp [workerDeletedRanges, getCurrentOperations, syncDeletedRangesToState]
  · simp only [workerDeletedRanges, getCurrentOperations, syncDeletedRangesToState]
    intro h
    exact hne (List.map_eq_nil_iff.mp h)
  · intro flag
    simp [getCurrentOperations, syncDeletedRangesToState, List.map_map]

/-- Witness for C2 with one deleted range `[1,2]` flagged expanded. -/
theorem claim_C2_witness :
    ExportRange.mk 1 2 ∈ workerDeletedRanges
        (getCurrentOperations none none (syncDeletedRangesToState [⟨1, 2, true⟩])) :=
  (claim_C2 none none [⟨1, 2, true⟩] (by simp)).1 ⟨1, 2, true⟩ (by simp)

/-! ## Claim C9 -/

/-- Two lists that are permutations of each other and both strictly sorted
by the same rational key are equal. -/
theorem sorted_perm_eq {α : Type} (key : α → ℚ) : ∀ (l₁ l₂ : List α), l₁.Perm l₂ →
    List.Pairwise (fun x y => key x < key y) l₁ →
    List.Pairwise (fun x y => key x < key y) l₂ → l₁ = l₂ := by
  intro l₁
  induction l₁ with
  | nil =>
    intro l₂ hp _ _
    exact (hp.symm.eq_nil).symm
  | cons x t₁ ih =>
    intro l₂ hp h1 h2
    cases l₂ with
    | nil => exact absurd hp.eq_nil (by simp)
    | cons y t₂ =>
      have hxy : x = y := by
        have hx2 : x ∈ y :: t₂ := hp.mem_iff.mp (by simp)
        have hy1 : y ∈ x :: t₁ := hp.mem_iff.mpr (by simp)
        rcases List.mem_cons.mp hx2 with h | hx
        · exact h
        · rcases List.mem_cons.mp hy1 with h' | hy
          · exact h'.symm
          · rw [List.pairwise_cons] at h1 h2
            have hkx : key x < key y := h1.1 y hy
            have hky : key y < key x := h2.1 x hx
            exact absurd (lt_trans hkx hky) (lt_irrefl _)
      subst hxy
      rw [List.pairwise_cons] at h1 h2
      rw [ih t₂ hp.cons_inv h1.2 h2.2]

/-- On an already-separated list the merge loop is the identity. -/
theorem mergeSorted_of_sep : ∀ (l : List DeletedRange) (c : DeletedRange),
    List.Pairwise rangesSep (c :: l) → mergeSorted c l = c :: l := by
  intro l
  induction l with
  | nil => intro c _; rfl
  | cons r rest ih =>
    intro c h
    rw [List.pairwise_cons] at h
    have hcr : rangesSep c r := h.1 r (by simp)
    unfold rangesSep at hcr
    rw [mergeSorted, if_neg (by linarith), ih r h.2]

/-- C9 (amended): for a well-formed model state, deleting a selection
`[a,b]` that neither overlaps nor comes within the merge tolerance of any
existing deleted range, and then restoring exactly `[a,b]`, returns exactly
the previous deleted-range list (reporting a change), so `getVisibleRanges`
is unchanged. -/
theorem claim_C9 (d : Time) (rs : List DeletedRange) (a b : Time)
    (hwf : WellFormed rs) (hab : a < b)
    (hsep : ∀ r ∈ rs, r.«end» + eps < a ∨ b + eps < r.start) :
    restoreDeletedInRange (addDeletedRange rs ⟨a, b, false⟩) a b = (rs, true)
    ∧ getVisibleRanges d ((restoreDeletedInRange (addDeletedRange rs ⟨a, b, false⟩) a b).1)
        = getVisibleRanges d rs := by
  set ab : DeletedRange := ⟨a, b, false⟩ with hab_def
  have hab_start : ab.start = a := rfl
  have hab_end : ab.«end» = b := rfl
  have hab_not : ab ∉ rs := by
    intro h
    rcases hsep ab h with h' | h'
    · rw [hab_end] at h'
      linarith [eps_pos]
    · rw [hab_start] at h'
      linarith [eps_pos]
  have hfilter : (rs ++ [ab]).filter (fun r => decide (r.start < r.«end»)) = rs ++ [ab] := by
    refine List.filter_eq_self.mpr ?_
    intro x hx
    rw [decide_eq_true_eq]
    rcases List.mem_append.mp hx with h | h
    · exact hwf.2 x h
    · simp only [List.mem_singleton] at h
      subst h
      rw [hab_start, hab_end]
      exact hab
  set S := List.insertionSort rleD (rs ++ [ab]) with hS
  have hperm : S.Perm (rs ++ [ab]) := List.perm_insertionSort rleD _
  have hsorted : List.Pairwise rleD S := List.sorted_insertionSort rleD _
  have hSmem : ∀ x : DeletedRange, x ∈ S ↔ (x ∈ rs ∨ x = ab) := by
    intro x
    rw [hperm.mem_iff, List.mem_append, List.mem_singleton]
  have hwidthS : ∀ x ∈ S, x.start < x.«end» := by
    intro x hx
    rcases (hSmem x).mp hx with h | h
    · exact hwf.2 x h
    · subst h
      rw [hab_start, hab_end]
      exact hab
  have hSD : List.Pairwise (fun x y => rangesSep x y ∨ rangesSep y x) (rs ++ [ab]) := by
    rw [List.pairwise_append]
    refine ⟨hwf.1.imp (fun h => Or.inl h), by simp, ?_⟩
    intro x hx y hy
    simp only [List.mem_singleton] at hy
    subst hy
    rcases hsep x hx with h | h
    · refine Or.inl ?_
      unfold rangesSep
      rw [hab_start]
      exact h
    · refine Or.inr ?_
      unfold rangesSep
      rw [hab_end]
      exact h
  have hSD' : List.Pairwise (fun x y => rangesSep x y ∨ rangesSep y x) S :=
    (hperm.pairwise_iff (fun h => Or.symm h)).mpr hSD
  have hsepS : List.Pairwise rangesSep S := by
    refine List.Pairwise.imp_of_mem ?_ (hsorted.and hSD')
    intro x y hxm hym ⟨hle, hor⟩
    rcases hor with h | h
    · exact h
    · exfalso
      unfold rangesSep at h
      unfold rleD at hle
      have hyw : y.start < y.«end» := hwidthS y hym
      linarith [eps_pos]
  have hnorm : normalizeDeletedRanges (rs ++ [ab]) = S := by
    rw [normalizeDeletedRanges_eq]
    have hsf : sortedFiltered (rs ++ [ab]) = S := by
      unfold sortedFiltered
      rw [hfilter]
    rw [hsf]
    rcases hScases : S with _ | ⟨s, rest⟩
    · rfl
    · rw [hScases] at hsepS
      exact mergeSorted_of_sep rest s hsepS
  have haddeq : addDeletedRange rs ab = S := by
    unfold addDeletedRange
    exact hnorm
  have hmem_ab : ab ∈ S := (hSmem ab).mpr (Or.inr rfl)
  have hSne : S ≠ [] := List.ne_nil_of_mem hmem_ab
  have hmin : min a b = a := min_eq_left hab.le
  have hmax : max a b = b := max_eq_right hab.le
  -- every element restores to itself, except ab which is dropped
  have hone : ∀ x ∈ S, restoreOne a b x = if x = ab then [] else [x] := by
    intro x hx
    rcases (hSmem x).mp hx with h | h
    · have hxab : x ≠ ab := fun he => hab_not (he ▸ h)
      rw [if_neg hxab]
      simp only [restoreOne]
      rw [if_pos]
      rcases hsep x h with h' | h'
      · calc min x.«end» b ≤ x.«end» := min_le_left _ _
          _ ≤ max x.start a := by
            have : x.«end» < a := by linarith [eps_pos]
            exact le_trans this.le (le_max_right _ _)
      · calc min x.«end» b ≤ b := min_le_right _ _
          _ ≤ max x.start a := by
            have : b < x.start := by linarith [eps_pos]
            exact le_trans this.le (le_max_left _ _)
    · subst h
      rw [if_pos rfl]
      simp only [restoreOne, hab_start, hab_end]
      rw [if_neg, if_pos ⟨le_refl a, le_refl b⟩]
      rw [min_self, max_self]
      exact not_le.mpr hab
  have hflat : ∀ (L : List DeletedRange),
      (∀ x ∈ L, restoreOne a b x = if x = ab then [] else [x]) →
      (L.map (restoreOne a b)).flatten = L.filter (fun x => decide ¬(x = ab)) := by
    intro L
    induction L with
    | nil => intro _; rfl
    | cons c cl ih =>
      intro h
      rw [List.map_cons, List.flatten_cons, ih (fun x hx => h x (by simp [hx])),
        h c (by simp)]
      by_cases hc : c = ab
      · simp [hc]
      · simp [hc]
  have hrs_f : rs.filter (fun x => decide ¬(x = ab)) = rs := by
    refine List.filter_eq_self.mpr ?_
    intro x hx
    rw [decide_eq_true_eq]
    intro he
    exact hab_not (he ▸ hx)
  have hRperm : (S.filter (fun x => decide ¬(x = ab))).Perm rs := by
    have hp := hperm.filter (fun x => decide ¬(x = ab))
    have : (rs ++ [ab]).filter (fun x => decide ¬(x = ab)) = rs := by
      rw [List.filter_append, hrs_f]
      simp
    rw [this] at hp
    exact hp
  have hRsep : List.Pairwise rangesSep (S.filter (fun x => decide ¬(x = ab))) :=
    hsepS.sublist (List.filter_sublist _)
  have hRstrict : List.Pairwise (fun x y => x.start < y.start)
      (S.filter (fun x => decide ¬(x = ab))) := by
    refine List.Pairwise.imp_of_mem ?_ hRsep
    intro x y hx _ hxy
    have hxw : x.start < x.«end» := hwidthS x (List.mem_of_mem_filter hx)
    unfold rangesSep at hxy
    linarith [eps_pos]
  have hrs_strict : List.Pairwise (fun x y => x.start < y.start) rs :=
    (wellFormed_sorted_disjoint hwf).imp (fun h => h.1)
  have hReq : S.filter (fun x => decide ¬(x = ab)) = rs :=
    sorted_perm_eq (fun r => r.start) _ rs hRperm hRstrict hrs_strict
  have hfirst : restoreDeletedInRange (addDeletedRange rs ⟨a, b, false⟩) a b = (rs, true) := by
    rw [show (⟨a, b, false⟩ : DeletedRange) = ab from rfl, haddeq]
    simp only [restoreDeletedInRange, hmin, hmax]
    rw [if_neg (by rw [List.isEmpty_iff]; exact hSne)]
    have hchanged : (S.any fun r => decide (max r.start a < min r.«end» b)) = true := by
      rw [List.any_eq_true]
      refine ⟨ab, hmem_ab, ?_⟩
      rw [decide_eq_true_eq, hab_start, hab_end, max_self, min_self]
      exact hab
    rw [if_pos hchanged, hflat S hone, hReq]
  exact ⟨hfirst, by rw [hfirst]⟩

/-- Witness for C9: the spec scenario — duration 100, no prior deletions,
delete `[10,20]` then restore `[10,20]` leaves the deleted set empty. -/
theorem claim_C9_witness :
    restoreDeletedInRange (addDeletedRange [] ⟨10, 20, false⟩) 10 20 = ([], true)
    ∧ getVisibleRanges 100 ((restoreDeletedInRange
        (addDeletedRange [] ⟨10, 20, false⟩) 10 20).1) = getVisibleRanges 100 [] := by
  have hwf : WellFormed ([] : List DeletedRange) := ⟨List.Pairwise.nil, by simp⟩
  exact claim_C9 100 [] 10 20 hwf (by norm_num) (by simp)

/-- Counterexample to C9 as stated: with a prior deleted range `[5,15]`,
deleting `[10,20]` merges into `[5,20]`, and restoring `[10,20]` leaves
`[5,10]` — the visible ranges differ from the original. -/
theorem claim_C9_counterexample :
    addDeletedRange [⟨5, 15, false⟩] ⟨10, 20, false⟩ = [⟨5, 20, false⟩]
    ∧ restoreDeletedInRange (addDeletedRange [⟨5, 15, false⟩] ⟨10, 20, false⟩) 10 20
        = ([⟨5, 10, false⟩], true)
    ∧ getVisibleRanges 100 [⟨5, 10, false⟩] = [⟨0, 5, false⟩, ⟨10, 100, false⟩]
    ∧ getVisibleRanges 100 [⟨5, 15, false⟩] = [⟨0, 5, false⟩, ⟨15, 100, false⟩]
    ∧ getVisibleRanges 100 ((restoreDeletedInRange
          (addDeletedRange [⟨5, 15, false⟩] ⟨10, 20, false⟩) 10 20).1)
        ≠ getVisibleRanges 100 [⟨5, 15, false⟩] := by
  have h1 : addDeletedRange [⟨5, 15, false⟩] ⟨10, 20, false⟩ = [⟨5, 20, false⟩] := by
    norm_num [addDeletedRange, normalizeDeletedRanges, mergeSorted, List.insertionSort,
      List.orderedInsert, rleD, eps, List.filter]
  have h2 : restoreDeletedInRange [⟨5, 20, false⟩] 10 20 = ([⟨5, 10, false⟩], true) := by
    norm_num [restoreDeletedInRange, restoreOne]
  have h3 : getVisibleRanges 100 [⟨5, 10, false⟩] = [⟨0, 5, false⟩, ⟨10, 100, false⟩] := by
    norm_num [getVisibleRanges, normalizeDeletedRanges, keptFromSorted, mergeSegs,
      mergeSorted, List.insertionSort, List.orderedInsert, rleD, rleS, eps, List.filter]
  have h4 : getVisibleRanges 100 [⟨5, 15, false⟩] = [⟨0, 5, false⟩, ⟨15, 100, false⟩] := by
    norm_num [getVisibleRanges, normalizeDeletedRanges, keptFromSorted, mergeSegs,
      mergeSorted, List.insertionSort, List.orderedInsert, rleD, rleS, eps, List.filter]
  refine ⟨h1, ?_, h3, h4, ?_⟩
  · rw [h1]
    exact h2
  · rw [h1, h2]
    show getVisibleRanges 100 [⟨5, 10, false⟩] ≠ getVisibleRanges 100 [⟨5, 15, false⟩]
    rw [h3, h4]
    intro h
    rw [List.cons.injEq] at h
    rcases h with ⟨_, h'⟩
    rw [List.cons.injEq] at h'
    rcases h' with ⟨h'', _⟩
    rw [VisSeg.mk.injEq] at h''
    norm_num at h''

end VideoCropper
